import Mathlib

/-!
Verification of `phraser.py`: a program that finds the most frequently
repeated phrases (bounded-length word sequences that do not span sentence
boundaries) in a text.  The pipeline is:

  tokenizer (sentence split + punctuation strip) →
  trie builder (`build_tree` / `add_to_node`) →
  phrase extractor (`get_phrases`) →
  ranker (`print_top_x`).

Strings are modelled as lists of characters (`Str := List Char`); Python
dictionaries are modelled as insertion-ordered association lists whose
update-or-append operation mirrors `d[k] = v`.
-/

namespace Phraser

/-- Strings are modelled as lists of characters. -/
abbrev Str := List Char

/-! ### Tokenizer (from `build_tree`, lines 62–69 of phraser.py) -/

/-- The whitespace characters recognised by Python's `str.split()` /
`str.strip()` on ASCII text: space, tab, newline, vertical tab, form feed,
carriage return. -/
def isPySpace (c : Char) : Bool :=
  c = ' ' || c = '\t' || c = '\n' || c = '\x0b' || c = '\x0c' || c = '\r'

/-- Membership in Python's `string.punctuation`, which consists exactly of
the ASCII characters with codes 33–47, 58–64, 91–96 and 123–126. -/
def isPunct (c : Char) : Bool :=
  let n := c.toNat
  (33 ≤ n && n ≤ 47) || (58 ≤ n && n ≤ 64) || (91 ≤ n && n ≤ 96) || (123 ≤ n && n ≤ 126)

/-- `re.sub('[;!?]', '.', s)`: replace every `;`, `!`, `?` by `.`. -/
def replaceSentenceEnds (s : Str) : Str :=
  s.map (fun c => if c = ';' || c = '!' || c = '?' then '.' else c)

/-- Split a character list at every character satisfying `p`, keeping empty
segments, as Python's single-character `str.split('.')` does. -/
def splitOnP (p : Char → Bool) : Str → List Str
  | [] => [[]]
  | c :: rest =>
    if p c then [] :: splitOnP p rest
    else
      match splitOnP p rest with
      | [] => [[c]]
      | g :: gs => (c :: g) :: gs

/-- Python's `s.strip()` (for ASCII input): drop whitespace from both ends. -/
def pyStrip (s : Str) : Str :=
  ((s.dropWhile isPySpace).reverse.dropWhile isPySpace).reverse

/-- Python's `s.split()` with no argument: split on whitespace runs,
discarding empty pieces. -/
def pySplitWs (s : Str) : List Str :=
  (splitOnP isPySpace s).filter (· ≠ [])

/-- `s.translate(translator)` where the translator deletes every character
of `string.punctuation`. -/
def stripPunct (s : Str) : Str :=
  s.filter (fun c => !isPunct c)

/-- The word list of one raw sentence: `s.translate(translator)` followed by
`s.strip().split()` (phraser.py lines 67–69). -/
def sentenceWords (s : Str) : List Str :=
  pySplitWs (pyStrip (stripPunct s))

/-- The raw sentences of the input text: normalise `; ! ?` to `.`, then
split on `.` (phraser.py lines 62–64). -/
def rawSentences (text : Str) : List Str :=
  splitOnP (· = '.') (replaceSentenceEnds text)

/-! ### Trie (`Node` class, `add_to_node`) -/

/-- `Node(count, children)`: `children` is an insertion-ordered dictionary
from words to child nodes, modelled as an association list. -/
inductive Node where
  | mk (count : Nat) (children : List (Str × Node))

instance : Inhabited Node := ⟨.mk 0 []⟩

/-- The `count` field of a node. -/
def Node.count : Node → Nat
  | .mk c _ => c

/-- The `children` field of a node. -/
def Node.children : Node → List (Str × Node)
  | .mk _ ch => ch

@[simp] theorem Node.count_mk (c : Nat) (ch : List (Str × Node)) :
    (Node.mk c ch).count = c := rfl

@[simp] theorem Node.children_mk (c : Nat) (ch : List (Str × Node)) :
    (Node.mk c ch).children = ch := rfl

mutual

/-- Decidable equality of nodes (written by hand: the nested inductive does
not support deriving). -/
def Node.decEq : (a b : Node) → Decidable (a = b)
  | .mk c1 ch1, .mk c2 ch2 =>
    match Nat.decEq c1 c2 with
    | isFalse h => isFalse (fun he => by cases he; exact h rfl)
    | isTrue h1 =>
      match Node.decEqChildren ch1 ch2 with
      | isFalse h => isFalse (fun he => by cases he; exact h rfl)
      | isTrue h2 => isTrue (by rw [h1, h2])

/-- Decidable equality of children lists. -/
def Node.decEqChildren : (a b : List (Str × Node)) → Decidable (a = b)
  | [], [] => isTrue rfl
  | [], _ :: _ => isFalse (fun h => by cases h)
  | _ :: _, [] => isFalse (fun h => by cases h)
  | (w1, n1) :: r1, (w2, n2) :: r2 =>
    match instDecidableEqList w1 w2 with
    | isFalse h => isFalse (fun he => by cases he; exact h rfl)
    | isTrue hw =>
      match Node.decEq n1 n2 with
      | isFalse h => isFalse (fun he => by cases he; exact h rfl)
      | isTrue hn =>
        match Node.decEqChildren r1 r2 with
        | isFalse h => isFalse (fun he => by cases he; exact h rfl)
        | isTrue hr => isTrue (by rw [hw, hn, hr])

end

instance : DecidableEq Node := Node.decEq

/-- Dictionary lookup: `d[k]` if `k in d`. -/
def lookupA {β : Type} : List (Str × β) → Str → Option β
  | [], _ => none
  | (k1, v1) :: rest, k => if k1 = k then some v1 else lookupA rest k

/-- Dictionary update at an existing key: replaces the value in place,
keeping insertion order, as Python's `d[k] = v` does for a present key. -/
def updateA {β : Type} : List (Str × β) → Str → β → List (Str × β)
  | [], _, _ => []
  | (k1, v1) :: rest, k, v => if k1 = k then (k1, v) :: rest else (k1, v1) :: updateA rest k v

/-- Python dictionary assignment `d[k] = v`: overwrite the value at `k` if
present (keeping its position), otherwise append `(k, v)`. -/
def dictInsert {β : Type} : List (Str × β) → Str → β → List (Str × β)
  | [], k, v => [(k, v)]
  | (k1, v1) :: rest, k, v =>
    if k1 = k then (k1, v) :: rest else (k1, v1) :: dictInsert rest k v

/-- `add_to_node(node, phrase)` (phraser.py lines 83–103): walk the phrase
word by word; an existing child keyed by the next word has its count
incremented by 1, a missing child is created with count 1; in both cases the
walk descends into the child with the rest of the phrase. -/
def add_to_node : Node → List Str → Node
  | node, [] => node
  | .mk c ch, w :: rest =>
    match lookupA ch w with
    | some child =>
      .mk c (updateA ch w (add_to_node (.mk (child.count + 1) child.children) rest))
    | none =>
      .mk c (ch ++ [(w, add_to_node (.mk 1 []) rest)])

/-! ### Builder (`build_tree`, lines 50–80) -/

/-- The window inserted for start index `start` in a word list:
`words[start:end]` with `end = min(len(words), start + maxlen)`
(phraser.py lines 76–78). -/
def window (maxlen : Nat) (words : List Str) (start : Nat) : List Str :=
  (words.drop start).take (min words.length (start + maxlen) - start)

/-- The list of windows of one sentence, one per start index in
`range(len(words) - minlen + 1)` (Python integer arithmetic: empty when
`len(words) < minlen`, which `Nat` subtraction in `length + 1 - minlen`
reproduces exactly). -/
def windows (minlen maxlen : Nat) (words : List Str) : List (List Str) :=
  (List.range (words.length + 1 - minlen)).map (window maxlen words)

/-- Insert every window of one sentence into the trie, in order. -/
def insertWindows (minlen maxlen : Nat) (words : List Str) (root : Node) : Node :=
  (windows minlen maxlen words).foldl add_to_node root

/-- `build_tree(sentences)` (phraser.py lines 50–80): tokenize, discard
sentences with zero words, and insert every window of every remaining
sentence into a trie rooted at `Node(0, {})`. -/
def build_tree (minlen maxlen : Nat) (text : Str) : Node :=
  (rawSentences text).foldl
    (fun root s =>
      let words := sentenceWords s
      if words.length = 0 then root
      else insertWindows minlen maxlen words root)
    (.mk 0 [])

/-! ### Extractor (`get_phrases`, lines 123–142) -/

/-- The candidate map: phrase text → count, as an insertion-ordered
dictionary. -/
abbrev Dict := List (Str × Nat)

mutual

/-- `get_phrases(node, current_phrase, phrases, word_len)` (phraser.py lines
123–142): a leaf at depth ≥ `minlen` records its phrase and returns;
otherwise each child is examined: the node's phrase is recorded when the
node's count strictly exceeds the child's and the depth is ≥ `minlen`, and
the traversal recurses into the child. -/
def get_phrases (minlen : Nat) : Node → Str → Dict → Nat → Dict
  | .mk c ch, cur, phrases, wl =>
    if ch.isEmpty && decide (minlen ≤ wl) then
      dictInsert phrases (pyStrip cur) c
    else
      get_phrases_children minlen c ch cur phrases wl

/-- The `for word, child_node in node.children.items()` loop of
`get_phrases`. -/
def get_phrases_children (minlen c : Nat) (ch : List (Str × Node)) (cur : Str)
    (phrases : Dict) (wl : Nat) : Dict :=
  match ch with
  | [] => phrases
  | (w, child) :: rest =>
    let phrases1 :=
      if child.count < c ∧ minlen ≤ wl then dictInsert phrases (pyStrip cur) c else phrases
    let phrases2 := get_phrases minlen child (cur ++ w ++ [' ']) phrases1 (wl + 1)
    get_phrases_children minlen c rest cur phrases2 wl

end

mutual

/-- The ordered log of dictionary writes `phrases[...] = ...` performed by
`get_phrases`: same control flow as `get_phrases`, recording each written
(key, value) pair instead of threading the dictionary. -/
def writesAux (minlen : Nat) : Node → Str → Nat → List (Str × Nat)
  | .mk c ch, cur, wl =>
    if ch.isEmpty && decide (minlen ≤ wl) then [(pyStrip cur, c)]
    else writesChildren minlen c ch cur wl

/-- The write log of the `for word, child_node in node.children.items()`
loop of `get_phrases`. -/
def writesChildren (minlen c : Nat) (ch : List (Str × Node)) (cur : Str) (wl : Nat) :
    List (Str × Nat) :=
  match ch with
  | [] => []
  | (w, child) :: rest =>
    (if child.count < c ∧ minlen ≤ wl then [(pyStrip cur, c)] else [])
      ++ writesAux minlen child (cur ++ w ++ [' ']) (wl + 1)
      ++ writesChildren minlen c rest cur wl

end

/-- The write log of a full extraction run started at the root. -/
def writes (minlen : Nat) (root : Node) : List (Str × Nat) :=
  writesAux minlen root [] 0

mutual

/-- All nodes of a trie, each paired with the word path leading to it from
the given node (the node itself appears with path `[]`). -/
def subpaths : Node → List (List Str × Node)
  | .mk c ch => ([], .mk c ch) :: subpathsChildren ch

/-- The subpath enumeration of a children list: paths through each child,
prefixed by that child's key. -/
def subpathsChildren : List (Str × Node) → List (List Str × Node)
  | [] => []
  | (w, child) :: rest =>
    (subpaths child).map (fun q => (w :: q.1, q.2)) ++ subpathsChildren rest

end

/-- The raw text accumulated by `get_phrases` along a word path: each word
followed by one space (`current_phrase + str(word) + " "`). -/
def joinT : List Str → Str
  | [] => []
  | w :: rest => w ++ [' '] ++ joinT rest

/-- Words joined by single spaces, with no trailing space: the phrase text
as it appears as a key of the candidate map. -/
def joinSpace : List Str → Str
  | [] => []
  | [w] => w
  | w :: rest => w ++ [' '] ++ joinSpace rest

/-- A word as produced by the tokenizer: nonempty and containing no
whitespace character. -/
def GoodWord (w : Str) : Prop := w ≠ [] ∧ ∀ c ∈ w, isPySpace c = false

/-- The structural invariant of every non-root subtree of a built trie: the
node's count is at least 1, its children dictionary has no duplicate keys,
every edge label is a tokenizer word, every child's count is at most the
node's count, and the invariant holds recursively. -/
inductive SubInv : Node → Prop
  | intro (c : Nat) (ch : List (Str × Node)) :
      1 ≤ c →
      (ch.map Prod.fst).Nodup →
      (∀ p ∈ ch, GoodWord p.1) →
      (∀ p ∈ ch, p.2.count ≤ c) →
      (∀ p ∈ ch, SubInv p.2) →
      SubInv (.mk c ch)

/-- The invariant of the root of a built trie: no duplicate child keys, and
every child satisfies `SubInv` with a tokenizer word on its edge.  (The
root's own count stays 0, so `SubInv` itself does not hold at the root.) -/
def RootInv (n : Node) : Prop :=
  (n.children.map Prod.fst).Nodup ∧ ∀ p ∈ n.children, GoodWord p.1 ∧ SubInv p.2

/-! ### Ranker (`print_top_x`, lines 145–155) -/

/-- Total lookup into the candidate map (every key passed to it comes from
the map itself, so the default is never observed). -/
def countOf (d : Dict) (k : Str) : Nat :=
  (lookupA d k).getD 0

/-- Stable descending insertion by count: `k` goes after every element whose
count is at least `countOf d k`. -/
def insertByCount (d : Dict) (k : Str) : List Str → List Str
  | [] => [k]
  | x :: xs => if countOf d x ≤ countOf d k then k :: x :: xs else x :: insertByCount d k xs

/-- `sorted(phrases.keys(), key = lambda x: phrases[x], reverse=True)`:
a stable sort of the keys by count, descending (Python's `sorted` is
stable). -/
def sortKeysDesc (d : Dict) : List Str → List Str
  | [] => []
  | x :: xs => insertByCount d x (sortKeysDesc d xs)

/-- Number a key list `1, 2, …`, attaching each key's count. -/
def numberFrom (d : Dict) : Nat → List Str → List (Nat × Nat × Str)
  | _, [] => []
  | i, k :: rest => (i, countOf d k, k) :: numberFrom d (i + 1) rest

/-- `print_top_x(phrases)` (phraser.py lines 145–155), as the list of
`(rank, count, phrase)` triples printed: the keys sorted by count
descending, cut off after `top_x` entries (the loop breaks once `i > top_x`),
numbered from 1. -/
def print_top_x (top_x : Nat) (phrases : Dict) : List (Nat × Nat × Str) :=
  numberFrom phrases 1 ((sortKeysDesc phrases (phrases.map Prod.fst)).take top_x)

/-- The whole pipeline on a text: candidate map of the built trie, starting
from the empty accumulator, as `main` does. -/
def pipeline (minlen maxlen : Nat) (text : Str) : Dict :=
  get_phrases minlen (build_tree minlen maxlen text) [] [] 0

/-! ### Association-list lemmas -/

theorem lookupA_nil {β : Type} (k : Str) : lookupA ([] : List (Str × β)) k = none := rfl

theorem lookupA_cons {β : Type} (k1 : Str) (v1 : β) (r : List (Str × β)) (k : Str) :
    lookupA ((k1, v1) :: r) k = if k1 = k then some v1 else lookupA r k := rfl

theorem updateA_cons {β : Type} (k1 : Str) (v1 : β) (r : List (Str × β)) (k : Str) (v : β) :
    updateA ((k1, v1) :: r) k v =
      if k1 = k then (k1, v) :: r else (k1, v1) :: updateA r k v := rfl

theorem dictInsert_cons {β : Type} (k1 : Str) (v1 : β) (r : List (Str × β)) (k : Str) (v : β) :
    dictInsert ((k1, v1) :: r) k v =
      if k1 = k then (k1, v) :: r else (k1, v1) :: dictInsert r k v := rfl

theorem lookupA_eq_none_iff {β : Type} (l : List (Str × β)) (k : Str) :
    lookupA l k = none ↔ k ∉ l.map Prod.fst := by
  induction l with
  | nil => simp [lookupA_nil]
  | cons e r ih =>
    obtain ⟨k1, v1⟩ := e
    rw [lookupA_cons]
    by_cases h : k1 = k
    · subst h
      rw [if_pos rfl]
      simp only [List.map_cons, List.mem_cons]
      constructor
      · intro hn
        cases hn
      · intro hn
        exact absurd (Or.inl trivial) hn
    · rw [if_neg h]
      simp only [List.map_cons, List.mem_cons, ih]
      constructor
      · rintro hn (he | he)
        · exact h he.symm
        · exact hn he
      · intro hn he
        exact hn (Or.inr he)

theorem mem_of_mem_updateA {β : Type} (l : List (Str × β)) (k : Str) (v : β) :
    ∀ p ∈ updateA l k v, p ∈ l ∨ p = (k, v) := by
  induction l with
  | nil => intro p hp; exact absurd hp (List.not_mem_nil p)
  | cons e r ih =>
    obtain ⟨k1, v1⟩ := e
    intro p hp
    rw [updateA_cons] at hp
    by_cases h : k1 = k
    · subst h
      rw [if_pos rfl] at hp
      rcases List.mem_cons.1 hp with h1 | h1
      · right; rw [h1]
      · left; exact List.mem_cons_of_mem _ h1
    · rw [if_neg h] at hp
      rcases List.mem_cons.1 hp with h1 | h1
      · left; rw [h1]; exact List.mem_cons_self _ _
      · rcases ih p h1 with h2 | h2
        · left; exact List.mem_cons_of_mem _ h2
        · right; exact h2

theorem map_fst_updateA {β : Type} (l : List (Str × β)) (k : Str) (v : β) :
    (updateA l k v).map Prod.fst = l.map Prod.fst := by
  induction l with
  | nil => rfl
  | cons e r ih =>
    obtain ⟨k1, v1⟩ := e
    rw [updateA_cons]
    by_cases h : k1 = k
    · rw [if_pos h, List.map_cons, List.map_cons]
    · rw [if_neg h, List.map_cons, List.map_cons, ih]

theorem lookupA_updateA_self {β : Type} (l : List (Str × β)) (k : Str) (v : β)
    (h : lookupA l k ≠ none) : lookupA (updateA l k v) k = some v := by
  induction l with
  | nil => exact absurd rfl h
  | cons e r ih =>
    obtain ⟨k1, v1⟩ := e
    rw [updateA_cons]
    by_cases hk : k1 = k
    · rw [if_pos hk, lookupA_cons, if_pos hk]
    · rw [lookupA_cons, if_neg hk] at h
      rw [if_neg hk, lookupA_cons, if_neg hk]
      exact ih h

theorem lookupA_updateA_ne {β : Type} (l : List (Str × β)) (k k2 : Str) (v : β)
    (h : k2 ≠ k) : lookupA (updateA l k v) k2 = lookupA l k2 := by
  induction l with
  | nil => rfl
  | cons e r ih =>
    obtain ⟨k1, v1⟩ := e
    rw [updateA_cons]
    by_cases hk : k1 = k
    · subst hk
      rw [if_pos rfl, lookupA_cons, lookupA_cons, if_neg (fun he => h he.symm),
        if_neg (fun he => h he.symm)]
    · rw [if_neg hk, lookupA_cons, lookupA_cons]
      by_cases h2 : k1 = k2
      · rw [if_pos h2, if_pos h2]
      · rw [if_neg h2, if_neg h2, ih]

theorem lookupA_append_right {β : Type} (l : List (Str × β)) (k : Str) (v : β)
    (h : lookupA l k = none) : lookupA (l ++ [(k, v)]) k = some v := by
  induction l with
  | nil => rw [List.nil_append, lookupA_cons, if_pos rfl]
  | cons e r ih =>
    obtain ⟨k1, v1⟩ := e
    rw [lookupA_cons] at h
    by_cases hk : k1 = k
    · exact absurd h (by rw [if_pos hk]; simp)
    · rw [if_neg hk] at h
      rw [List.cons_append, lookupA_cons, if_neg hk]
      exact ih h

theorem lookupA_append_ne {β : Type} (l : List (Str × β)) (k k2 : Str) (v : β)
    (h : k2 ≠ k) : lookupA (l ++ [(k, v)]) k2 = lookupA l k2 := by
  induction l with
  | nil => rw [List.nil_append, lookupA_cons, if_neg (fun he => h he.symm)]
  | cons e r ih =>
    obtain ⟨k1, v1⟩ := e
    rw [List.cons_append, lookupA_cons, lookupA_cons]
    by_cases h2 : k1 = k2
    · rw [if_pos h2, if_pos h2]
    · rw [if_neg h2, if_neg h2, ih]

theorem lookupA_isSome_of_mem {β : Type} (l : List (Str × β)) (k : Str)
    (h : k ∈ l.map Prod.fst) : lookupA l k ≠ none :=
  fun hn => ((lookupA_eq_none_iff l k).1 hn) h

theorem map_fst_dictInsert {β : Type} (l : List (Str × β)) (k : Str) (v : β) :
    (dictInsert l k v).map Prod.fst =
      if k ∈ l.map Prod.fst then l.map Prod.fst else l.map Prod.fst ++ [k] := by
  induction l with
  | nil => simp [dictInsert]
  | cons e r ih =>
    obtain ⟨k1, v1⟩ := e
    rw [dictInsert_cons]
    by_cases h : k1 = k
    · subst h
      rw [if_pos rfl, List.map_cons, List.map_cons,
        if_pos (List.mem_cons_self _ _)]
    · rw [if_neg h, List.map_cons, List.map_cons, ih]
      by_cases hm : k ∈ r.map Prod.fst
      · rw [if_pos hm, if_pos (List.mem_cons_of_mem _ hm)]
      · rw [if_neg hm, if_neg (fun hc => by
          rcases List.mem_cons.1 hc with h1 | h1
          · exact h h1.symm
          · exact hm h1), List.cons_append]

theorem lookupA_dictInsert_self {β : Type} (l : List (Str × β)) (k : Str) (v : β) :
    lookupA (dictInsert l k v) k = some v := by
  induction l with
  | nil => rw [show dictInsert ([] : List (Str × β)) k v = [(k, v)] from rfl,
      lookupA_cons, if_pos rfl]
  | cons e r ih =>
    obtain ⟨k1, v1⟩ := e
    rw [dictInsert_cons]
    by_cases h : k1 = k
    · rw [if_pos h, lookupA_cons, if_pos h]
    · rw [if_neg h, lookupA_cons, if_neg h, ih]

theorem lookupA_dictInsert_ne {β : Type} (l : List (Str × β)) (k k1 : Str) (v : β)
    (h : k1 ≠ k) : lookupA (dictInsert l k v) k1 = lookupA l k1 := by
  induction l with
  | nil =>
    rw [show dictInsert ([] : List (Str × β)) k v = [(k, v)] from rfl,
      lookupA_cons, if_neg (fun he => h he.symm)]
  | cons e r ih =>
    obtain ⟨k2, v2⟩ := e
    rw [dictInsert_cons]
    by_cases h2 : k2 = k
    · subst h2
      rw [if_pos rfl, lookupA_cons, lookupA_cons, if_neg (fun he => h he.symm),
        if_neg (fun he => h he.symm)]
    · rw [if_neg h2, lookupA_cons, lookupA_cons]
      by_cases h3 : k2 = k1
      · rw [if_pos h3, if_pos h3]
      · rw [if_neg h3, if_neg h3, ih]

/-! ### An induction principle for the nested trie type -/

mutual

/-- Induction over a trie: to prove `P` at every node it suffices to prove
it at `Node.mk c ch` assuming it for every child in `ch`. -/
def Node.ind (P : Node → Prop)
    (h : ∀ c ch, (∀ p ∈ ch, P p.2) → P (.mk c ch)) : ∀ n, P n
  | .mk c ch => h c ch (Node.indChildren P h ch)

/-- Auxiliary induction over a children list. -/
def Node.indChildren (P : Node → Prop)
    (h : ∀ c ch, (∀ p ∈ ch, P p.2) → P (.mk c ch)) :
    ∀ l : List (Str × Node), ∀ p ∈ l, P p.2
  | [], p, hp => absurd hp (List.not_mem_nil p)
  | e :: r, p, hp => by
    rcases List.mem_cons.1 hp with h1 | h1
    · rw [h1]; exact Node.ind P h e.2
    · exact Node.indChildren P h r p h1

end

/-! ### Unfolding equations for the mutual extraction definitions -/

theorem get_phrases_mk (minlen c : Nat) (ch : List (Str × Node)) (cur : Str) (d : Dict)
    (wl : Nat) :
    get_phrases minlen (.mk c ch) cur d wl =
      if ch.isEmpty && decide (minlen ≤ wl) then dictInsert d (pyStrip cur) c
      else get_phrases_children minlen c ch cur d wl := rfl

theorem get_phrases_children_nil (minlen c : Nat) (cur : Str) (d : Dict) (wl : Nat) :
    get_phrases_children minlen c [] cur d wl = d := rfl

theorem get_phrases_children_cons (minlen c : Nat) (w : Str) (child : Node)
    (rest : List (Str × Node)) (cur : Str) (d : Dict) (wl : Nat) :
    get_phrases_children minlen c ((w, child) :: rest) cur d wl =
      get_phrases_children minlen c rest cur
        (get_phrases minlen child (cur ++ w ++ [' '])
          (if child.count < c ∧ minlen ≤ wl then dictInsert d (pyStrip cur) c else d)
          (wl + 1)) wl := rfl

theorem writesAux_mk (minlen c : Nat) (ch : List (Str × Node)) (cur : Str) (wl : Nat) :
    writesAux minlen (.mk c ch) cur wl =
      if ch.isEmpty && decide (minlen ≤ wl) then [(pyStrip cur, c)]
      else writesChildren minlen c ch cur wl := rfl

theorem writesChildren_nil (minlen c : Nat) (cur : Str) (wl : Nat) :
    writesChildren minlen c [] cur wl = [] := rfl

theorem writesChildren_cons (minlen c : Nat) (w : Str) (child : Node)
    (rest : List (Str × Node)) (cur : Str) (wl : Nat) :
    writesChildren minlen c ((w, child) :: rest) cur wl =
      (if child.count < c ∧ minlen ≤ wl then [(pyStrip cur, c)] else [])
        ++ writesAux minlen child (cur ++ w ++ [' ']) (wl + 1)
        ++ writesChildren minlen c rest cur wl := rfl

theorem subpaths_mk (c : Nat) (ch : List (Str × Node)) :
    subpaths (.mk c ch) = ([], Node.mk c ch) :: subpathsChildren ch := rfl

theorem subpathsChildren_nil : subpathsChildren [] = [] := rfl

theorem subpathsChildren_cons (w : Str) (child : Node) (rest : List (Str × Node)) :
    subpathsChildren ((w, child) :: rest) =
      (subpaths child).map (fun q => (w :: q.1, q.2)) ++ subpathsChildren rest := rfl

theorem joinT_nil : joinT [] = [] := rfl

theorem joinT_cons (w : Str) (p : List Str) : joinT (w :: p) = w ++ [' '] ++ joinT p := rfl

/-! ### The write log determines `get_phrases` -/

theorem get_phrases_children_eq_foldl (minlen c : Nat) (ch : List (Str × Node))
    (H : ∀ p ∈ ch, ∀ cur d wl, get_phrases minlen p.2 cur d wl =
      (writesAux minlen p.2 cur wl).foldl (fun d e => dictInsert d e.1 e.2) d) :
    ∀ cur d wl, get_phrases_children minlen c ch cur d wl =
      (writesChildren minlen c ch cur wl).foldl (fun d e => dictInsert d e.1 e.2) d := by
  induction ch with
  | nil => intro cur d wl; rfl
  | cons e r ih =>
    obtain ⟨w, child⟩ := e
    intro cur d wl
    rw [get_phrases_children_cons, writesChildren_cons, List.foldl_append, List.foldl_append,
      ih (fun p hp => H p (List.mem_cons_of_mem _ hp)),
      H (w, child) (List.mem_cons_self _ _)]
    by_cases hc : child.count < c ∧ minlen ≤ wl
    · rw [if_pos hc, if_pos hc]
      rfl
    · rw [if_neg hc, if_neg hc]
      rfl

/-- `get_phrases` equals replaying its write log onto the incoming
dictionary with `d[k] = v`. -/
theorem get_phrases_eq_foldl (minlen : Nat) (n : Node) : ∀ cur d wl,
    get_phrases minlen n cur d wl =
      (writesAux minlen n cur wl).foldl (fun d e => dictInsert d e.1 e.2) d := by
  induction n using Node.ind with
  | h c ch H =>
    intro cur d wl
    rw [get_phrases_mk, writesAux_mk]
    by_cases hif : ch.isEmpty && decide (minlen ≤ wl)
    · rw [if_pos hif, if_pos hif]
      rfl
    · rw [if_neg hif, if_neg hif, get_phrases_children_eq_foldl minlen c ch H]

/-! ### Membership in `subpaths` and in the write log -/

theorem mem_subpathsChildren (ch : List (Str × Node)) (pm : List Str × Node) :
    pm ∈ subpathsChildren ch ↔
      ∃ e ∈ ch, ∃ q ∈ subpaths e.2, pm = (e.1 :: q.1, q.2) := by
  induction ch with
  | nil => simp [subpathsChildren_nil]
  | cons e r ih =>
    obtain ⟨w, child⟩ := e
    rw [subpathsChildren_cons, List.mem_append, List.mem_map, ih,
      List.exists_mem_cons_iff]
    constructor
    · rintro (⟨q, hq, hpm⟩ | h)
      · exact Or.inl ⟨q, hq, hpm.symm⟩
      · exact Or.inr h
    · rintro (⟨q, hq, hpm⟩ | h)
      · exact Or.inl ⟨q, hq, hpm.symm⟩
      · exact Or.inr h

/-- Normal form of membership in the loop's write log: either a parent
write produced by some child with strictly smaller count, or a write from
some child's subtree. -/
theorem mem_writesChildren_elim (minlen c : Nat) (ch : List (Str × Node)) (cur : Str)
    (wl : Nat) (k : Str) (v : Nat) :
    (k, v) ∈ writesChildren minlen c ch cur wl ↔
      ((k = pyStrip cur ∧ v = c ∧ minlen ≤ wl ∧ ∃ e ∈ ch, e.2.count < c) ∨
       ∃ e ∈ ch, (k, v) ∈ writesAux minlen e.2 (cur ++ e.1 ++ [' ']) (wl + 1)) := by
  induction ch with
  | nil => simp [writesChildren_nil]
  | cons e r ih =>
    obtain ⟨w, child⟩ := e
    rw [writesChildren_cons, List.mem_append, List.mem_append, ih,
      List.exists_mem_cons_iff, List.exists_mem_cons_iff]
    constructor
    · rintro ((hif | hx) | (⟨h1, h2, h3, hex⟩ | hex))
      · by_cases hc : child.count < c ∧ minlen ≤ wl
        · rw [if_pos hc, List.mem_singleton, Prod.mk.injEq] at hif
          exact Or.inl ⟨hif.1, hif.2, hc.2, Or.inl hc.1⟩
        · rw [if_neg hc] at hif
          exact absurd hif (List.not_mem_nil _)
      · exact Or.inr (Or.inl hx)
      · exact Or.inl ⟨h1, h2, h3, Or.inr hex⟩
      · exact Or.inr (Or.inr hex)
    · rintro (⟨h1, h2, h3, (hh | hex)⟩ | (hx | hex))
      · refine Or.inl (Or.inl ?_)
        rw [if_pos ⟨hh, h3⟩, List.mem_singleton, Prod.mk.injEq]
        exact ⟨h1, h2⟩
      · exact Or.inr (Or.inl ⟨h1, h2, h3, hex⟩)
      · exact Or.inl (Or.inr hx)
      · exact Or.inr (Or.inr hex)

/-- The recording condition of the extraction traversal at a node at depth
`depth` (its word count): a leaf at depth ≥ `minlen`, or a node some of
whose children has a strictly smaller count, at depth ≥ `minlen`. -/
def RecordCond (minlen depth : Nat) (m : Node) : Prop :=
  (m.children = [] ∧ minlen ≤ depth) ∨
  ((∃ e ∈ m.children, e.2.count < m.count) ∧ minlen ≤ depth)

theorem RecordCond_mk (minlen depth c : Nat) (ch : List (Str × Node)) :
    RecordCond minlen depth (.mk c ch) ↔
      ((ch = [] ∧ minlen ≤ depth) ∨ ((∃ e ∈ ch, e.2.count < c) ∧ minlen ≤ depth)) :=
  Iff.rfl

/-- A (key, value) pair is written by the extraction traversal exactly when
some node of the trie, reached by path `pm.1` of length `wl + |pm.1|`,
satisfies the recording condition, with the key the stripped accumulated
text and the value that node's own count. -/
theorem mem_writesAux_iff (minlen : Nat) (n : Node) :
    ∀ (cur : Str) (wl : Nat) (k : Str) (v : Nat),
    (k, v) ∈ writesAux minlen n cur wl ↔
      ∃ pm ∈ subpaths n, k = pyStrip (cur ++ joinT pm.1) ∧ v = pm.2.count ∧
        RecordCond minlen (wl + pm.1.length) pm.2 := by
  induction n using Node.ind with
  | h c ch H =>
    intro cur wl k v
    rw [writesAux_mk, subpaths_mk, List.exists_mem_cons_iff]
    simp only [joinT_nil, List.append_nil, Node.count_mk, List.length_nil, Nat.add_zero]
    by_cases hch : ch = []
    · subst hch
      simp only [subpathsChildren_nil]
      by_cases hwl : minlen ≤ wl
      · rw [if_pos (by simp [hwl])]
        constructor
        · intro hmem
          rw [List.mem_singleton, Prod.mk.injEq] at hmem
          exact Or.inl ⟨hmem.1, hmem.2, Or.inl ⟨rfl, hwl⟩⟩
        · rintro (⟨h1, h2, _⟩ | ⟨pm, hpm, _⟩)
          · rw [List.mem_singleton, Prod.mk.injEq]
            exact ⟨h1, h2⟩
          · exact absurd hpm (List.not_mem_nil _)
      · rw [if_neg (by simp [hwl]), writesChildren_nil]
        constructor
        · intro hmem
          exact absurd hmem (List.not_mem_nil _)
        · rintro (⟨_, _, hrc⟩ | ⟨pm, hpm, _⟩)
          · rw [RecordCond_mk] at hrc
            rcases hrc with ⟨_, hc2⟩ | ⟨_, hc2⟩
            · exact absurd hc2 hwl
            · exact absurd hc2 hwl
          · exact absurd hpm (List.not_mem_nil _)
    · rw [if_neg (by simp [List.isEmpty_iff, hch]), mem_writesChildren_elim]
      constructor
      · rintro (⟨h1, h2, h3, hex⟩ | ⟨e, he, hmem⟩)
        · exact Or.inl ⟨h1, h2, (RecordCond_mk minlen wl c ch).2 (Or.inr ⟨hex, h3⟩)⟩
        · rcases (H e he (cur ++ e.1 ++ [' ']) (wl + 1) k v).1 hmem with ⟨q, hq, hk, hv, hrc⟩
          refine Or.inr ⟨(e.1 :: q.1, q.2), ?_, ?_, hv, ?_⟩
          · rw [mem_subpathsChildren]
            exact ⟨e, he, q, hq, rfl⟩
          · rw [hk, joinT_cons]
            simp [List.append_assoc]
          · show RecordCond minlen (wl + (q.1.length + 1)) q.2
            have harith : wl + (q.1.length + 1) = wl + 1 + q.1.length := by omega
            rw [harith]
            exact hrc
      · rintro (⟨h1, h2, hrc⟩ | ⟨pm, hpm, hk, hv, hrc⟩)
        · rw [RecordCond_mk] at hrc
          rcases hrc with ⟨hemp, _⟩ | ⟨hex, hwl⟩
          · exact absurd hemp hch
          · exact Or.inl ⟨h1, h2, hwl, hex⟩
        · rw [mem_subpathsChildren] at hpm
          rcases hpm with ⟨e, he, q, hq, hpmeq⟩
          subst hpmeq
          refine Or.inr ⟨e, he, ?_⟩
          rw [H e he]
          refine ⟨q, hq, ?_, hv, ?_⟩
          · rw [hk, joinT_cons]
            simp [List.append_assoc]
          · show RecordCond minlen (wl + 1 + q.1.length) q.2
            have harith : wl + 1 + q.1.length = wl + (q.1.length + 1) := by omega
            rw [harith]
            exact hrc

/-! ### Walking insertion paths (`add_to_node`) -/

/-- Follow a word path from a node through the children dictionaries. -/
def followPath : Node → List Str → Option Node
  | n, [] => some n
  | .mk _ ch, w :: rest =>
    match lookupA ch w with
    | some child => followPath child rest
    | none => none

/-- The count of the node at a path, 0 when no such node exists. -/
def countAt (n : Node) (p : List Str) : Nat :=
  match followPath n p with
  | some m => m.count
  | none => 0

theorem followPath_nil (n : Node) : followPath n [] = some n := by
  cases n
  rfl

theorem followPath_cons (c : Nat) (ch : List (Str × Node)) (w : Str) (rest : List Str) :
    followPath (.mk c ch) (w :: rest) =
      match lookupA ch w with
      | some child => followPath child rest
      | none => none := rfl

theorem add_to_node_nil (n : Node) : add_to_node n [] = n := by
  cases n
  rfl

theorem add_to_node_cons (c : Nat) (ch : List (Str × Node)) (w : Str) (rest : List Str) :
    add_to_node (.mk c ch) (w :: rest) =
      match lookupA ch w with
      | some child =>
        Node.mk c (updateA ch w (add_to_node (.mk (child.count + 1) child.children) rest))
      | none => Node.mk c (ch ++ [(w, add_to_node (.mk 1 []) rest)]) := rfl

/-- `add_to_node` never changes the count of the node it is called on. -/
theorem count_add_to_node (n : Node) (ws : List Str) :
    (add_to_node n ws).count = n.count := by
  cases ws with
  | nil => cases n; rfl
  | cons w rest =>
    cases n with
    | mk c ch =>
      rw [add_to_node_cons]
      cases h : lookupA ch w <;> rfl

/-- Inserting a window bumps the count of the node at every nonempty
prefix of the window by exactly 1, creating the node (with count
`0 + 1 = 1`) when it was absent. -/
theorem add_to_node_path (ws : List Str) : ∀ (n : Node) (q : List Str),
    q ≠ [] → (∃ t, q ++ t = ws) →
    ∃ m, followPath (add_to_node n ws) q = some m ∧ m.count = countAt n q + 1 := by
  induction ws with
  | nil =>
    rintro n q hq ⟨t, ht⟩
    exact absurd (List.append_eq_nil.1 ht).1 hq
  | cons w rest ih =>
    rintro n q hq ⟨t, ht⟩
    cases n with
    | mk c ch =>
      cases q with
      | nil => exact absurd rfl hq
      | cons w1 q1 =>
        rw [List.cons_append] at ht
        injection ht with h1 h2
        subst h1
        rw [add_to_node_cons]
        cases hl : lookupA ch w1 with
        | some child =>
          cases child with
          | mk cc cch =>
            simp only [Node.count_mk, Node.children_mk]
            have hfp : followPath
                (Node.mk c (updateA ch w1 (add_to_node (.mk (cc + 1) cch) rest))) (w1 :: q1)
                = followPath (add_to_node (.mk (cc + 1) cch) rest) q1 := by
              rw [followPath_cons,
                lookupA_updateA_self ch w1 _ (fun hn => by rw [hl] at hn; cases hn)]
            rw [hfp]
            cases q1 with
            | nil =>
              refine ⟨add_to_node (.mk (cc + 1) cch) rest, followPath_nil _, ?_⟩
              rw [count_add_to_node]
              show cc + 1 = countAt (Node.mk c ch) [w1] + 1
              rw [countAt, followPath_cons, hl]
              rfl
            | cons x xs =>
              rcases ih (.mk (cc + 1) cch) (x :: xs) (by simp) ⟨t, h2⟩ with ⟨m, hm, hmc⟩
              refine ⟨m, hm, ?_⟩
              rw [hmc]
              have heq : countAt (Node.mk (cc + 1) cch) (x :: xs)
                  = countAt (Node.mk c ch) (w1 :: x :: xs) := by
                rw [countAt, countAt,
                  show followPath (Node.mk c ch) (w1 :: x :: xs)
                      = followPath (Node.mk cc cch) (x :: xs) from by
                    rw [followPath_cons, hl],
                  followPath_cons, followPath_cons]
              rw [heq]
        | none =>
          have hfp : followPath (Node.mk c (ch ++ [(w1, add_to_node (.mk 1 []) rest)]))
              (w1 :: q1) = followPath (add_to_node (.mk 1 []) rest) q1 := by
            rw [followPath_cons, lookupA_append_right ch w1 _ hl]
          rw [hfp]
          have hcq : countAt (Node.mk c ch) (w1 :: q1) = 0 := by
            rw [countAt, followPath_cons, hl]
          cases q1 with
          | nil =>
            refine ⟨add_to_node (.mk 1 []) rest, followPath_nil _, ?_⟩
            rw [count_add_to_node, hcq]
            rfl
          | cons x xs =>
            rcases ih (.mk 1 []) (x :: xs) (by simp) ⟨t, h2⟩ with ⟨m, hm, hmc⟩
            refine ⟨m, hm, ?_⟩
            rw [hmc, hcq]
            have : countAt (Node.mk 1 []) (x :: xs) = 0 := by
              rw [countAt, followPath_cons]
              rfl
            rw [this]

/-! ### Window generation (`build_tree` lines 76–78) -/

/-- The windows of a sentence: none when the sentence is shorter than
`minlen`; otherwise exactly one window per start index `s` in
`[0, n - minlen]`, the window being `words[s : min(n, s + maxlen)]`, of
length between `minlen` and `maxlen`. -/
theorem windows_spec (minlen maxlen : Nat) (words : List Str)
    (hmin : 1 ≤ minlen) (hmax : minlen ≤ maxlen) :
    (words.length < minlen → windows minlen maxlen words = []) ∧
    (minlen ≤ words.length →
      (windows minlen maxlen words).length = words.length - minlen + 1 ∧
      ∀ s, ∀ hs : s < (windows minlen maxlen words).length,
        (windows minlen maxlen words).get ⟨s, hs⟩
            = (words.take (min words.length (s + maxlen))).drop s ∧
        minlen ≤ ((windows minlen maxlen words).get ⟨s, hs⟩).length ∧
        ((windows minlen maxlen words).get ⟨s, hs⟩).length ≤ maxlen) := by
  constructor
  · intro hlt
    have h0 : words.length + 1 - minlen = 0 := by omega
    unfold windows
    rw [h0]
    rfl
  · intro hge
    have hlen : (windows minlen maxlen words).length = words.length - minlen + 1 := by
      unfold windows
      rw [List.length_map, List.length_range]
      omega
    refine ⟨hlen, ?_⟩
    intro s hs
    have hsn : s ≤ words.length - minlen := by
      rw [hlen] at hs
      omega
    have hget : (windows minlen maxlen words).get ⟨s, hs⟩ = window maxlen words s := by
      simp only [windows, List.get_eq_getElem, List.getElem_map, List.getElem_range]
    refine ⟨?_, ?_, ?_⟩
    · rw [hget]
      unfold window
      rw [List.drop_take]
    · rw [hget]
      unfold window
      rw [List.length_take, List.length_drop]
      omega
    · rw [hget]
      unfold window
      rw [List.length_take, List.length_drop]
      omega

/-! ### Preservation of the trie invariants under insertion -/

theorem lookupA_mem {β : Type} : ∀ (l : List (Str × β)) (k : Str) (v : β),
    lookupA l k = some v → (k, v) ∈ l := by
  intro l
  induction l with
  | nil => intro k v h; cases h
  | cons e r ih =>
    obtain ⟨k1, v1⟩ := e
    intro k v h
    rw [lookupA_cons] at h
    by_cases hk : k1 = k
    · rw [if_pos hk] at h
      subst hk
      injection h with h
      subst h
      exact List.mem_cons_self _ _
    · rw [if_neg hk] at h
      exact List.mem_cons_of_mem _ (ih k v h)

theorem subInv_elim {c : Nat} {ch : List (Str × Node)} (h : SubInv (.mk c ch)) :
    1 ≤ c ∧ (ch.map Prod.fst).Nodup ∧ (∀ p ∈ ch, GoodWord p.1) ∧
      (∀ p ∈ ch, p.2.count ≤ c) ∧ (∀ p ∈ ch, SubInv p.2) := by
  cases h with
  | intro c ch h1 h2 h3 h4 h5 => exact ⟨h1, h2, h3, h4, h5⟩

/-- Inserting a phrase of tokenizer words into a node whose count has just
been bumped preserves the subtree invariant. -/
theorem subInv_add_to_node : ∀ (ws : List Str) (c : Nat) (ch : List (Str × Node)),
    (∀ w ∈ ws, GoodWord w) →
    (ch.map Prod.fst).Nodup →
    (∀ p ∈ ch, GoodWord p.1) →
    (∀ p ∈ ch, p.2.count ≤ c) →
    (∀ p ∈ ch, SubInv p.2) →
    SubInv (add_to_node (.mk (c + 1) ch) ws) := by
  intro ws
  induction ws with
  | nil =>
    intro c ch _ hnd hg hle hs
    rw [add_to_node_nil]
    exact SubInv.intro (c + 1) ch (by omega) hnd hg
      (fun p hp => Nat.le_trans (hle p hp) (by omega)) hs
  | cons w rest ih =>
    intro c ch hgw hnd hg hle hs
    rw [add_to_node_cons]
    cases hl : lookupA ch w with
    | some child =>
      have hmem : (w, child) ∈ ch := lookupA_mem ch w child hl
      cases child with
      | mk cc cch =>
        simp only [Node.count_mk, Node.children_mk]
        obtain ⟨hcc, hnd2, hg2, hle2, hs2⟩ := subInv_elim (hs (w, .mk cc cch) hmem)
        have hnew : SubInv (add_to_node (.mk (cc + 1) cch) rest) :=
          ih cc cch (fun x hx => hgw x (List.mem_cons_of_mem _ hx)) hnd2 hg2 hle2 hs2
        refine SubInv.intro (c + 1) _ (by omega) ?_ ?_ ?_ ?_
        · rw [map_fst_updateA]
          exact hnd
        · intro p hp
          rcases mem_of_mem_updateA ch w _ p hp with h1 | h1
          · exact hg p h1
          · rw [h1]
            exact hg (w, .mk cc cch) hmem
        · intro p hp
          rcases mem_of_mem_updateA ch w _ p hp with h1 | h1
          · exact Nat.le_trans (hle p h1) (by omega)
          · rw [h1]
            show (add_to_node (.mk (cc + 1) cch) rest).count ≤ c + 1
            rw [count_add_to_node, Node.count_mk]
            have := hle (w, .mk cc cch) hmem
            rw [Node.count_mk] at this
            omega
        · intro p hp
          rcases mem_of_mem_updateA ch w _ p hp with h1 | h1
          · exact hs p h1
          · rw [h1]
            exact hnew
    | none =>
      have hnew : SubInv (add_to_node (.mk 1 []) rest) :=
        ih 0 [] (fun x hx => hgw x (List.mem_cons_of_mem _ hx))
          List.nodup_nil (fun p hp => absurd hp (List.not_mem_nil p))
          (fun p hp => absurd hp (List.not_mem_nil p))
          (fun p hp => absurd hp (List.not_mem_nil p))
      have hwmem : w ∉ ch.map Prod.fst := (lookupA_eq_none_iff ch w).1 hl
      refine SubInv.intro (c + 1) _ (by omega) ?_ ?_ ?_ ?_
      · rw [List.map_append]
        exact List.Nodup.append hnd (List.nodup_singleton w)
          (by
            intro x hx hx2
            simp only [List.map_cons, List.map_nil, List.mem_singleton] at hx2
            subst hx2
            exact hwmem hx)
      · intro p hp
        rcases List.mem_append.1 hp with h1 | h1
        · exact hg p h1
        · rw [List.mem_singleton] at h1
          rw [h1]
          exact hgw w (List.mem_cons_self _ _)
      · intro p hp
        rcases List.mem_append.1 hp with h1 | h1
        · exact Nat.le_trans (hle p h1) (by omega)
        · rw [List.mem_singleton] at h1
          rw [h1]
          show (add_to_node (.mk 1 []) rest).count ≤ c + 1
          rw [count_add_to_node, Node.count_mk]
          omega
      · intro p hp
        rcases List.mem_append.1 hp with h1 | h1
        · exact hs p h1
        · rw [List.mem_singleton] at h1
          rw [h1]
          exact hnew

/-- Inserting a phrase of tokenizer words preserves the root invariant. -/
theorem rootInv_add_to_node (n : Node) (ws : List Str)
    (hgw : ∀ w ∈ ws, GoodWord w) (h : RootInv n) : RootInv (add_to_node n ws) := by
  cases n with
  | mk c ch =>
    cases ws with
    | nil => rw [add_to_node_nil]; exact h
    | cons w rest =>
      obtain ⟨hnd, hgs⟩ := h
      rw [Node.children_mk] at hnd hgs
      rw [add_to_node_cons]
      cases hl : lookupA ch w with
      | some child =>
        have hmem : (w, child) ∈ ch := lookupA_mem ch w child hl
        cases child with
        | mk cc cch =>
          simp only [Node.count_mk, Node.children_mk]
          obtain ⟨hcc, hnd2, hg2, hle2, hs2⟩ := subInv_elim (hgs (w, .mk cc cch) hmem).2
          have hnew : SubInv (add_to_node (.mk (cc + 1) cch) rest) :=
            subInv_add_to_node rest cc cch
              (fun x hx => hgw x (List.mem_cons_of_mem _ hx)) hnd2 hg2 hle2 hs2
          constructor
          · rw [Node.children_mk, map_fst_updateA]
            exact hnd
          · intro p hp
            rw [Node.children_mk] at hp
            rcases mem_of_mem_updateA ch w _ p hp with h1 | h1
            · exact hgs p h1
            · rw [h1]
              exact ⟨(hgs (w, .mk cc cch) hmem).1, hnew⟩
      | none =>
        have hnew : SubInv (add_to_node (.mk 1 []) rest) :=
          subInv_add_to_node rest 0 []
            (fun x hx => hgw x (List.mem_cons_of_mem _ hx))
            List.nodup_nil (fun p hp => absurd hp (List.not_mem_nil p))
            (fun p hp => absurd hp (List.not_mem_nil p))
            (fun p hp => absurd hp (List.not_mem_nil p))
        have hwmem : w ∉ ch.map Prod.fst := (lookupA_eq_none_iff ch w).1 hl
        constructor
        · rw [Node.children_mk, List.map_append]
          exact List.Nodup.append hnd (List.nodup_singleton w)
            (by
              intro x hx hx2
              simp only [List.map_cons, List.map_nil, List.mem_singleton] at hx2
              subst hx2
              exact hwmem hx)
        · intro p hp
          rw [Node.children_mk] at hp
          rcases List.mem_append.1 hp with h1 | h1
          · exact hgs p h1
          · rw [List.mem_singleton] at h1
            rw [h1]
            exact ⟨hgw w (List.mem_cons_self _ _), hnew⟩

/-- A property preserved by each step of a fold is preserved by the fold. -/
theorem foldl_preserve {α : Type} (P : Node → Prop) (f : Node → α → Node) :
    ∀ (l : List α), (∀ a ∈ l, ∀ n, P n → P (f n a)) →
      ∀ n, P n → P (l.foldl f n) := by
  intro l
  induction l with
  | nil => intro _ n h; exact h
  | cons a r ih =>
    intro hf n h
    rw [List.foldl_cons]
    exact ih (fun x hx m hm => hf x (List.mem_cons_of_mem _ hx) m hm)
      (f n a) (hf a (List.mem_cons_self _ _) n h)

/-- Every word produced by splitting contains no separator character. -/
theorem splitOnP_sepfree (p : Char → Bool) : ∀ (l : Str), ∀ g ∈ splitOnP p l,
    ∀ c ∈ g, p c = false := by
  intro l
  induction l with
  | nil =>
    intro g hg c hc
    rw [show splitOnP p [] = [[]] from rfl, List.mem_singleton] at hg
    subst hg
    exact absurd hc (List.not_mem_nil c)
  | cons a rest ih =>
    intro g hg c hc
    rw [show splitOnP p (a :: rest)
        = if p a then [] :: splitOnP p rest
          else match splitOnP p rest with
            | [] => [[a]]
            | g :: gs => (a :: g) :: gs from rfl] at hg
    by_cases hpa : p a
    · rw [if_pos hpa, List.mem_cons] at hg
      rcases hg with hg | hg
      · subst hg
        exact absurd hc (List.not_mem_nil c)
      · exact ih g hg c hc
    · rw [if_neg hpa] at hg
      cases hsp : splitOnP p rest with
      | nil =>
        rw [hsp, List.mem_singleton] at hg
        subst hg
        rw [List.mem_singleton] at hc
        subst hc
        exact Bool.eq_false_iff.2 hpa
      | cons g1 gs =>
        rw [hsp, List.mem_cons] at hg
        rcases hg with hg | hg
        · subst hg
          rcases List.mem_cons.1 hc with hc | hc
          · subst hc
            exact Bool.eq_false_iff.2 hpa
          · exact ih g1 (by rw [hsp]; exact List.mem_cons_self _ _) c hc
        · exact ih g (by rw [hsp]; exact List.mem_cons_of_mem _ hg) c hc

/-- Every word of a tokenized sentence is nonempty and whitespace-free. -/
theorem sentenceWords_good (s : Str) : ∀ w ∈ sentenceWords s, GoodWord w := by
  intro w hw
  rw [sentenceWords, pySplitWs, List.mem_filter] at hw
  refine ⟨by simpa using hw.2, ?_⟩
  intro c hc
  exact splitOnP_sepfree isPySpace _ w hw.1 c hc

/-- Every word of every window of a tokenized sentence is a tokenizer word. -/
theorem window_words_good (maxlen : Nat) (s : Str) (start : Nat) :
    ∀ w ∈ window maxlen (sentenceWords s) start, GoodWord w := by
  intro w hw
  rw [window] at hw
  exact sentenceWords_good s w (List.mem_of_mem_drop (List.mem_of_mem_take hw))

/-- The root invariant holds for every built trie. -/
theorem rootInv_build_tree (minlen maxlen : Nat) (text : Str) :
    RootInv (build_tree minlen maxlen text) := by
  rw [build_tree]
  refine foldl_preserve RootInv _ (rawSentences text) ?_ _ ?_
  · intro s _ n hn
    dsimp only
    by_cases hz : (sentenceWords s).length = 0
    · rw [if_pos hz]
      exact hn
    · rw [if_neg hz]
      rw [insertWindows]
      refine foldl_preserve RootInv _ _ ?_ n hn
      intro a ha m hm
      rw [windows] at ha
      rcases List.mem_map.1 ha with ⟨i, _, hi⟩
      subst hi
      exact rootInv_add_to_node m _ (window_words_good maxlen s i) hm
  · exact ⟨List.nodup_nil, fun p hp => absurd hp (List.not_mem_nil p)⟩

/-! ### Depth is bounded by the longest inserted window -/

theorem mem_subpaths (n : Node) (pm : List Str × Node) :
    pm ∈ subpaths n ↔
      pm = ([], n) ∨ ∃ e ∈ n.children, ∃ q ∈ subpaths e.2, pm = (e.1 :: q.1, q.2) := by
  cases n with
  | mk c ch =>
    rw [subpaths_mk, List.mem_cons, mem_subpathsChildren, Node.children_mk]

/-- Every path through the given children list, counting its entering edge,
is shorter than `d`. -/
def ChLE (d : Nat) (ch : List (Str × Node)) : Prop :=
  ∀ e ∈ ch, ∀ q ∈ subpaths e.2, q.1.length < d

theorem chLE_add_to_node : ∀ (ws : List Str) (d c : Nat) (ch : List (Str × Node)),
    ChLE d ch → ws.length ≤ d → ChLE d (add_to_node (.mk c ch) ws).children := by
  intro ws
  induction ws with
  | nil =>
    intro d c ch h _
    rw [add_to_node_nil, Node.children_mk]
    exact h
  | cons w rest ih =>
    intro d c ch h hlen
    rw [List.length_cons] at hlen
    rw [add_to_node_cons]
    cases hl : lookupA ch w with
    | some child =>
      have hmemc : (w, child) ∈ ch := lookupA_mem ch w child hl
      cases child with
      | mk cc cch =>
        simp only [Node.count_mk, Node.children_mk]
        have hsub : ChLE (d - 1) cch := by
          intro e2 he2 q2 hq2
          have hmem2 : ((e2.1 :: q2.1, q2.2) : List Str × Node) ∈ subpaths (.mk cc cch) :=
            (mem_subpaths _ _).2 (Or.inr ⟨e2, he2, q2, hq2, rfl⟩)
          have := h (w, .mk cc cch) hmemc _ hmem2
          simp only [List.length_cons] at this
          omega
        have hrec : ChLE (d - 1) (add_to_node (.mk (cc + 1) cch) rest).children :=
          ih (d - 1) (cc + 1) cch hsub (by omega)
        intro e he q hq
        rcases mem_of_mem_updateA ch w _ e he with h1 | h1
        · exact h e h1 q hq
        · subst h1
          rcases (mem_subpaths _ q).1 hq with h2 | ⟨e2, he2, q2, hq2, h2⟩
          · rw [h2]
            simp only [List.length_nil]
            omega
          · rw [h2]
            simp only [List.length_cons]
            have := hrec e2 he2 q2 hq2
            omega
    | none =>
      have hrec : ChLE (d - 1) (add_to_node (.mk 1 []) rest).children := by
        have h0 : ChLE (d - 1) ([] : List (Str × Node)) :=
          fun e he => absurd he (List.not_mem_nil e)
        exact ih (d - 1) 1 [] h0 (by omega)
      intro e he q hq
      rcases List.mem_append.1 he with h1 | h1
      · exact h e h1 q hq
      · rw [List.mem_singleton] at h1
        subst h1
        rcases (mem_subpaths _ q).1 hq with h2 | ⟨e2, he2, q2, hq2, h2⟩
        · rw [h2]
          simp only [List.length_nil]
          omega
        · rw [h2]
          simp only [List.length_cons]
          have := hrec e2 he2 q2 hq2
          omega

theorem window_length_le (maxlen : Nat) (words : List Str) (s : Nat) :
    (window maxlen words s).length ≤ maxlen := by
  rw [window, List.length_take, List.length_drop]
  omega

/-- Every path of a built trie has at most `maxlen` edges. -/
theorem chLE_build_tree (minlen maxlen : Nat) (text : Str) :
    ChLE maxlen (build_tree minlen maxlen text).children := by
  rw [build_tree]
  refine foldl_preserve (fun n => ChLE maxlen n.children) _ (rawSentences text) ?_ _ ?_
  · intro s _ n hn
    dsimp only
    by_cases hz : (sentenceWords s).length = 0
    · rw [if_pos hz]
      exact hn
    · rw [if_neg hz]
      rw [insertWindows]
      refine foldl_preserve (fun n => ChLE maxlen n.children) _ _ ?_ n hn
      intro a ha m hm
      rw [windows] at ha
      rcases List.mem_map.1 ha with ⟨i, _, hi⟩
      subst hi
      cases m with
      | mk c ch =>
        rw [Node.children_mk] at hm
        exact chLE_add_to_node _ maxlen c ch hm (window_length_le maxlen _ i)
  · intro e he
    rw [Node.children_mk] at he
    exact absurd he (List.not_mem_nil e)

/-! ### Phrase texts: stripping and splitting space-joined words -/

theorem joinSpace_nil : joinSpace [] = [] := rfl

theorem joinSpace_single (w : Str) : joinSpace [w] = w := rfl

theorem joinSpace_cons2 (w x : Str) (rest : List Str) :
    joinSpace (w :: x :: rest) = w ++ [' '] ++ joinSpace (x :: rest) := rfl

theorem splitOnP_cons (p : Char → Bool) (c : Char) (rest : Str) :
    splitOnP p (c :: rest) =
      if p c then [] :: splitOnP p rest
      else
        match splitOnP p rest with
        | [] => [[c]]
        | g :: gs => (c :: g) :: gs := rfl

/-- The raw accumulated text of a nonempty path is its space-joined text
followed by one trailing space. -/
theorem joinT_eq_joinSpace (p : List Str) (hp : p ≠ []) :
    joinT p = joinSpace p ++ [' '] := by
  induction p with
  | nil => exact absurd rfl hp
  | cons w rest ih =>
    cases rest with
    | nil =>
      rw [joinT_cons, joinT_nil, joinSpace_single, List.append_nil]
    | cons x xs =>
      rw [joinT_cons, ih (by simp), joinSpace_cons2]
      simp [List.append_assoc]

theorem joinSpace_first (p : List Str) (hp : p ≠ []) (hg : ∀ w ∈ p, GoodWord w) :
    ∃ c t, joinSpace p = c :: t ∧ isPySpace c = false := by
  cases p with
  | nil => exact absurd rfl hp
  | cons w rest =>
    obtain ⟨hne, hsp⟩ := hg w (List.mem_cons_self _ _)
    cases w with
    | nil => exact absurd rfl hne
    | cons c w1 =>
      cases rest with
      | nil => exact ⟨c, w1, rfl, hsp c (List.mem_cons_self _ _)⟩
      | cons x xs =>
        exact ⟨c, (w1 ++ [' ']) ++ joinSpace (x :: xs), rfl, hsp c (List.mem_cons_self _ _)⟩

theorem joinSpace_last (p : List Str) : p ≠ [] → (∀ w ∈ p, GoodWord w) →
    ∃ c t, (joinSpace p).reverse = c :: t ∧ isPySpace c = false := by
  induction p with
  | nil => intro h; exact absurd rfl h
  | cons w rest ih =>
    intro _ hg
    cases rest with
    | nil =>
      obtain ⟨hne, hsp⟩ := hg w (List.mem_cons_self _ _)
      cases hwr : w.reverse with
      | nil =>
        exact absurd (by simpa using congrArg List.reverse hwr) hne
      | cons c t =>
        refine ⟨c, t, by rw [joinSpace_single, hwr], ?_⟩
        have hcw : c ∈ w := by
          rw [← List.mem_reverse, hwr]
          exact List.mem_cons_self _ _
        exact hsp c hcw
    | cons x xs =>
      obtain ⟨c, t, hct, hc⟩ := ih (by simp) (fun u hu => hg u (List.mem_cons_of_mem _ hu))
      refine ⟨c, t ++ (w ++ [' ']).reverse, ?_, hc⟩
      rw [joinSpace_cons2, List.reverse_append, hct]
      rfl

/-- Stripping the raw accumulated text of a nonempty path of tokenizer
words yields exactly the space-joined phrase text. -/
theorem pyStrip_joinT (p : List Str) (hp : p ≠ []) (hg : ∀ w ∈ p, GoodWord w) :
    pyStrip (joinT p) = joinSpace p := by
  obtain ⟨c, t, hct, hc⟩ := joinSpace_first p hp hg
  obtain ⟨c2, t2, hct2, hc2⟩ := joinSpace_last p hp hg
  rw [joinT_eq_joinSpace p hp]
  unfold pyStrip
  have e1 : (joinSpace p ++ [' ']).dropWhile isPySpace = joinSpace p ++ [' '] := by
    rw [hct, List.cons_append]
    exact List.dropWhile_cons_of_neg (by simp [hc])
  have e2 : (joinSpace p ++ [' ']).reverse = ' ' :: (joinSpace p).reverse := by
    rw [List.reverse_append]
    rfl
  rw [e1, e2, List.dropWhile_cons_of_pos (by decide), hct2,
    List.dropWhile_cons_of_neg (by simp [hc2]), ← hct2, List.reverse_reverse]

theorem splitOnP_sepfree_all (p : Char → Bool) : ∀ (a : Str), (∀ c ∈ a, p c = false) →
    splitOnP p a = [a] := by
  intro a
  induction a with
  | nil => intro; rfl
  | cons c rest ih =>
    intro h
    have hc : p c = false := h c (List.mem_cons_self _ _)
    rw [splitOnP_cons, if_neg (by simp [hc]),
      ih (fun x hx => h x (List.mem_cons_of_mem _ hx))]

theorem splitOnP_break (p : Char → Bool) (s : Char) (hs : p s = true) :
    ∀ (a b : Str), (∀ c ∈ a, p c = false) →
    splitOnP p (a ++ s :: b) = a :: splitOnP p b := by
  intro a
  induction a with
  | nil =>
    intro b _
    rw [List.nil_append, splitOnP_cons, if_pos hs]
  | cons c rest ih =>
    intro b h
    have hc : p c = false := h c (List.mem_cons_self _ _)
    rw [List.cons_append, splitOnP_cons, if_neg (by simp [hc]),
      ih b (fun x hx => h x (List.mem_cons_of_mem _ hx))]

theorem splitOnP_joinSpace : ∀ (pl : List Str), (∀ w ∈ pl, GoodWord w) →
    splitOnP isPySpace (joinSpace pl) = if pl = [] then [[]] else pl := by
  intro pl
  induction pl with
  | nil => intro; rfl
  | cons w rest ih =>
    intro hg
    rw [if_neg (by simp)]
    have hw : ∀ c ∈ w, isPySpace c = false := (hg w (List.mem_cons_self _ _)).2
    cases rest with
    | nil =>
      rw [joinSpace_single]
      exact splitOnP_sepfree_all isPySpace w hw
    | cons x xs =>
      rw [joinSpace_cons2, List.append_assoc,
        show ([' '] ++ joinSpace (x :: xs)) = ' ' :: joinSpace (x :: xs) from rfl,
        splitOnP_break isPySpace ' ' (by decide) w _ hw,
        ih (fun u hu => hg u (List.mem_cons_of_mem _ hu)), if_neg (by simp)]

/-- Splitting the space-joined text of tokenizer words recovers the words. -/
theorem pySplitWs_joinSpace (pl : List Str) (hg : ∀ w ∈ pl, GoodWord w) :
    pySplitWs (joinSpace pl) = pl := by
  rw [pySplitWs, splitOnP_joinSpace pl hg]
  cases pl with
  | nil => rfl
  | cons w rest =>
    rw [if_neg (by simp)]
    rw [List.filter_eq_self]
    intro a ha
    simpa using (hg a ha).1

/-- Space-joining is injective on lists of tokenizer words. -/
theorem joinSpace_inj (p q : List Str) (hp : ∀ w ∈ p, GoodWord w)
    (hq : ∀ w ∈ q, GoodWord w) (h : joinSpace p = joinSpace q) : p = q := by
  rw [← pySplitWs_joinSpace p hp, ← pySplitWs_joinSpace q hq, h]

/-! ### Facts about nodes reached by paths of a built trie -/

/-- In a tree satisfying `SubInv`, every reachable node has good edge
labels on its path, count at least 1, and satisfies `SubInv` itself. -/
theorem subInv_paths (m : Node) : SubInv m → ∀ pm ∈ subpaths m,
    (∀ w ∈ pm.1, GoodWord w) ∧ 1 ≤ pm.2.count ∧ SubInv pm.2 := by
  induction m using Node.ind with
  | h c ch H =>
    intro hs pm hpm
    obtain ⟨hc1, hnd, hgw, hle, hsub⟩ := subInv_elim hs
    rcases (mem_subpaths _ pm).1 hpm with h1 | ⟨e, he, q, hq, h1⟩
    · subst h1
      exact ⟨fun w hw => absurd hw (List.not_mem_nil w), hc1, hs⟩
    · rw [Node.children_mk] at he
      obtain ⟨hg2, hc2, hs2⟩ := H e he (hsub e he) q hq
      subst h1
      refine ⟨?_, hc2, hs2⟩
      intro w hw
      rcases List.mem_cons.1 hw with hw | hw
      · subst hw
        exact hgw e he
      · exact hg2 w hw

/-- In a built trie, every node reached by a nonempty path has good edge
labels, positive count, and satisfies `SubInv`. -/
theorem rootInv_paths (n : Node) (h : RootInv n) : ∀ pm ∈ subpaths n, pm.1 ≠ [] →
    (∀ w ∈ pm.1, GoodWord w) ∧ 1 ≤ pm.2.count ∧ SubInv pm.2 := by
  intro pm hpm hne
  rcases (mem_subpaths _ pm).1 hpm with h1 | ⟨e, he, q, hq, h1⟩
  · rw [h1] at hne
    exact absurd rfl hne
  · obtain ⟨hgood, hsub⟩ := h.2 e he
    obtain ⟨hg2, hc2, hs2⟩ := subInv_paths e.2 hsub q hq
    subst h1
    refine ⟨?_, hc2, hs2⟩
    intro w hw
    rcases List.mem_cons.1 hw with hw | hw
    · subst hw
      exact hgood
    · exact hg2 w hw

/-- In a dictionary with no duplicate keys, entries are determined by their
key. -/
theorem mem_nodup_keys {β : Type} : ∀ (l : List (Str × β)) (w : Str) (a b : β),
    (l.map Prod.fst).Nodup → (w, a) ∈ l → (w, b) ∈ l → a = b := by
  intro l
  induction l with
  | nil => intro w a b _ ha; exact absurd ha (List.not_mem_nil _)
  | cons e r ih =>
    intro w a b hnd ha hb
    rw [List.map_cons, List.nodup_cons] at hnd
    rcases List.mem_cons.1 ha with ha | ha <;> rcases List.mem_cons.1 hb with hb | hb
    · have h2 : ((w, a) : Str × β) = (w, b) := ha.trans hb.symm
      exact congrArg Prod.snd h2
    · rw [← ha] at hnd
      exact absurd (List.mem_map.2 ⟨(w, b), hb, rfl⟩) hnd.1
    · rw [← hb] at hnd
      exact absurd (List.mem_map.2 ⟨(w, a), ha, rfl⟩) hnd.1
    · exact ih w a b hnd.2 ha hb

/-- In a tree satisfying `SubInv`, a path determines the node it reaches. -/
theorem subInv_path_unique (m : Node) : SubInv m → ∀ (p : List Str) (m1 m2 : Node),
    (p, m1) ∈ subpaths m → (p, m2) ∈ subpaths m → m1 = m2 := by
  induction m using Node.ind with
  | h c ch H =>
    intro hs p m1 m2 h1 h2
    obtain ⟨_, hnd, _, _, hsub⟩ := subInv_elim hs
    rcases (mem_subpaths _ _).1 h1 with ha | ⟨e1, he1, q1, hq1, ha⟩ <;>
      rcases (mem_subpaths _ _).1 h2 with hb | ⟨e2, he2, q2, hq2, hb⟩
    · injection ha with ha1 ha2
      injection hb with hb1 hb2
      rw [ha2, hb2]
    · injection ha with ha1 ha2
      injection hb with hb1 hb2
      rw [ha1] at hb1
      cases hb1
    · injection ha with ha1 ha2
      injection hb with hb1 hb2
      rw [hb1] at ha1
      cases ha1
    · injection ha with ha1 ha2
      injection hb with hb1 hb2
      rw [ha1] at hb1
      injection hb1 with hw hq
      rw [Node.children_mk] at he1 he2
      have hee : e1.2 = e2.2 :=
        mem_nodup_keys ch e1.1 e1.2 e2.2 hnd
          (by rw [Prod.mk.eta]; exact he1)
          (by rw [hw, Prod.mk.eta]; exact he2)
      rw [ha2, hb2]
      refine H e1 he1 (hsub e1 he1) q1.1 q1.2 q2.2 ?_ ?_
      · rw [Prod.mk.eta]
        exact hq1
      · rw [← hee] at hq2
        rw [hq, Prod.mk.eta]
        exact hq2

/-- In a built trie, a path determines the node it reaches. -/
theorem rootInv_path_unique (n : Node) (h : RootInv n) : ∀ (p : List Str) (m1 m2 : Node),
    (p, m1) ∈ subpaths n → (p, m2) ∈ subpaths n → m1 = m2 := by
  intro p m1 m2 h1 h2
  rcases (mem_subpaths _ _).1 h1 with ha | ⟨e1, he1, q1, hq1, ha⟩ <;>
    rcases (mem_subpaths _ _).1 h2 with hb | ⟨e2, he2, q2, hq2, hb⟩
  · injection ha with ha1 ha2
    injection hb with hb1 hb2
    rw [ha2, hb2]
  · injection ha with ha1 ha2
    injection hb with hb1 hb2
    rw [ha1] at hb1
    cases hb1
  · injection ha with ha1 ha2
    injection hb with hb1 hb2
    rw [hb1] at ha1
    cases ha1
  · injection ha with ha1 ha2
    injection hb with hb1 hb2
    rw [ha1] at hb1
    injection hb1 with hw hq
    have hee : e1.2 = e2.2 :=
      mem_nodup_keys n.children e1.1 e1.2 e2.2 h.1
        (by rw [Prod.mk.eta]; exact he1)
        (by rw [hw, Prod.mk.eta]; exact he2)
    rw [ha2, hb2]
    refine subInv_path_unique e1.2 (h.2 e1 he1).2 q1.1 q1.2 q2.2 ?_ ?_
    · rw [Prod.mk.eta]
      exact hq1
    · rw [← hee] at hq2
      rw [hq, Prod.mk.eta]
      exact hq2

/-- Characterization of the write log over a built trie: each written pair
comes from a node at a nonempty path of good words, bounded by `maxlen`,
with the key the space-joined path and the value the node's positive
count. -/
theorem mem_writes_built (minlen maxlen : Nat) (text : Str) (hmin : 1 ≤ minlen)
    (k : Str) (v : Nat)
    (h : (k, v) ∈ writes minlen (build_tree minlen maxlen text)) :
    ∃ p m, (p, m) ∈ subpaths (build_tree minlen maxlen text) ∧
      p ≠ [] ∧ (∀ w ∈ p, GoodWord w) ∧ k = joinSpace p ∧ v = m.count ∧
      1 ≤ m.count ∧ minlen ≤ p.length ∧ p.length ≤ maxlen := by
  rw [writes] at h
  rcases (mem_writesAux_iff minlen _ [] 0 k v).1 h with ⟨pm, hpm, hk, hv, hrc⟩
  obtain ⟨p, m⟩ := pm
  have hdep : minlen ≤ p.length := by
    rcases hrc with ⟨_, hd⟩ | ⟨_, hd⟩ <;> simpa using hd
  have hne : p ≠ [] := by
    intro he
    rw [he] at hdep
    simp at hdep
    omega
  obtain ⟨hgood, hcount, _⟩ :=
    rootInv_paths _ (rootInv_build_tree minlen maxlen text) (p, m) hpm hne
  have hkey : k = joinSpace p := by
    rw [hk, List.nil_append]
    exact pyStrip_joinT p hne hgood
  have hmaxd : p.length ≤ maxlen := by
    rcases (mem_subpaths _ _).1 hpm with h1 | ⟨e, he, q, hq, h1⟩
    · injection h1 with h1a
      exact absurd h1a hne
    · injection h1 with h1a h1b
      have := chLE_build_tree minlen maxlen text e he q hq
      rw [h1a, List.length_cons]
      omega
  exact ⟨p, m, hpm, hne, hgood, hkey, hv, hcount, hdep, hmaxd⟩

/-! ### From the write log to the final candidate map -/

theorem mem_dictInsert {β : Type} : ∀ (l : List (Str × β)) (k : Str) (v : β)
    (p : Str × β), p ∈ dictInsert l k v → p ∈ l ∨ p = (k, v) := by
  intro l
  induction l with
  | nil =>
    intro k v p hp
    rw [show dictInsert ([] : List (Str × β)) k v = [(k, v)] from rfl,
      List.mem_singleton] at hp
    exact Or.inr hp
  | cons e r ih =>
    obtain ⟨k1, v1⟩ := e
    intro k v p hp
    rw [dictInsert_cons] at hp
    by_cases h : k1 = k
    · rw [if_pos h] at hp
      rcases List.mem_cons.1 hp with h1 | h1
      · subst h
        exact Or.inr h1
      · exact Or.inl (List.mem_cons_of_mem _ h1)
    · rw [if_neg h] at hp
      rcases List.mem_cons.1 hp with h1 | h1
      · rw [h1]
        exact Or.inl (List.mem_cons_self _ _)
      · rcases ih k v p h1 with h2 | h2
        · exact Or.inl (List.mem_cons_of_mem _ h2)
        · exact Or.inr h2

theorem mem_foldl_dictInsert : ∀ (l : List (Str × Nat)) (d : Dict) (p : Str × Nat),
    p ∈ l.foldl (fun d e => dictInsert d e.1 e.2) d → p ∈ d ∨ p ∈ l := by
  intro l
  induction l with
  | nil => intro d p hp; exact Or.inl hp
  | cons e r ih =>
    intro d p hp
    rw [List.foldl_cons] at hp
    rcases ih (dictInsert d e.1 e.2) p hp with h1 | h1
    · rcases mem_dictInsert d e.1 e.2 p h1 with h2 | h2
      · exact Or.inl h2
      · rw [h2, ← Prod.mk.eta (p := e)]
        exact Or.inr (List.mem_cons_self _ _)
    · exact Or.inr (List.mem_cons_of_mem _ h1)

/-- Every entry of the final candidate map is a written pair. -/
theorem mem_pipeline (minlen maxlen : Nat) (text : Str) (p : Str × Nat)
    (hp : p ∈ pipeline minlen maxlen text) :
    (p.1, p.2) ∈ writes minlen (build_tree minlen maxlen text) := by
  rw [pipeline, get_phrases_eq_foldl] at hp
  rcases mem_foldl_dictInsert _ [] p hp with h1 | h1
  · exact absurd h1 (List.not_mem_nil p)
  · rw [writes, Prod.mk.eta]
    exact h1

/-- Two writes with the same key during extraction of a built trie always
carry the same value: the key determines the path, the path determines the
node, and the value is that node's count. -/
theorem writes_value_unique (minlen maxlen : Nat) (text : Str) (hmin : 1 ≤ minlen)
    (k : Str) (v1 v2 : Nat)
    (h1 : (k, v1) ∈ writes minlen (build_tree minlen maxlen text))
    (h2 : (k, v2) ∈ writes minlen (build_tree minlen maxlen text)) : v1 = v2 := by
  obtain ⟨p1, m1, hpm1, hne1, hg1, hk1, hv1, _, _, _⟩ :=
    mem_writes_built minlen maxlen text hmin k v1 h1
  obtain ⟨p2, m2, hpm2, hne2, hg2, hk2, hv2, _, _, _⟩ :=
    mem_writes_built minlen maxlen text hmin k v2 h2
  have hp : p1 = p2 := joinSpace_inj p1 p2 hg1 hg2 (by rw [← hk1, ← hk2])
  subst hp
  have hm : m1 = m2 :=
    rootInv_path_unique _ (rootInv_build_tree minlen maxlen text) p1 m1 m2 hpm1 hpm2
  rw [hv1, hv2, hm]

/-! ### Tokenizer refinement (C8) -/

/-- Normalising `; ! ?` to `.` and splitting on `.` is the same as splitting
directly on any of the four sentence-boundary characters. -/
theorem rawSentences_eq_splitOnBoundary (text : Str) :
    rawSentences text =
      splitOnP (fun c => c = '.' || c = ';' || c = '!' || c = '?') text := by
  rw [rawSentences, replaceSentenceEnds]
  induction text with
  | nil => rfl
  | cons c rest ih =>
    rw [List.map_cons, splitOnP_cons, splitOnP_cons]
    by_cases hb : (c = ';' || c = '!' || c = '?' : Bool)
    · rw [if_pos hb]
      have h4 : (c = '.' || c = ';' || c = '!' || c = '?' : Bool) = true := by
        simp only [Bool.or_eq_true, decide_eq_true_eq] at hb ⊢
        tauto
      rw [if_pos (by simp), if_pos h4, ih]
    · rw [if_neg hb]
      by_cases hdot : c = '.'
      · subst hdot
        rw [if_pos (by simp), if_pos (by simp), ih]
      · have hsemi : c ≠ ';' := fun he => hb (by simp [he])
        have hbang : c ≠ '!' := fun he => hb (by simp [he])
        have hques : c ≠ '?' := fun he => hb (by simp [he])
        rw [if_neg (by simp [hdot]), if_neg (by simp [hdot, hsemi, hbang, hques]), ih]

/-- Sentences whose word list is empty contribute nothing: the builder is
the same as folding window insertion over only the nonempty word lists. -/
theorem build_tree_eq_filtered (minlen maxlen : Nat) (text : Str) :
    build_tree minlen maxlen text =
      (((rawSentences text).map sentenceWords).filter (· ≠ [])).foldl
        (fun root ws => insertWindows minlen maxlen ws root) (.mk 0 []) := by
  rw [build_tree]
  generalize (rawSentences text) = l
  generalize (Node.mk 0 [] : Node) = root
  induction l generalizing root with
  | nil => rfl
  | cons s r ih =>
    rw [List.foldl_cons, List.map_cons]
    by_cases hz : (sentenceWords s).length = 0
    · have hnil : sentenceWords s = [] := List.length_eq_zero.1 hz
      rw [show (if (sentenceWords s).length = 0 then root
          else insertWindows minlen maxlen (sentenceWords s) root) = root from if_pos hz,
        show List.filter (· ≠ []) (sentenceWords s :: List.map sentenceWords r)
            = List.filter (· ≠ []) (List.map sentenceWords r) from by
          rw [hnil, List.filter_cons_of_neg (by simp)],
        ih root]
    · rw [show (if (sentenceWords s).length = 0 then root
          else insertWindows minlen maxlen (sentenceWords s) root)
            = insertWindows minlen maxlen (sentenceWords s) root from if_neg hz,
        show List.filter (· ≠ []) (sentenceWords s :: List.map sentenceWords r)
            = sentenceWords s :: List.filter (· ≠ []) (List.map sentenceWords r) from by
          rw [List.filter_cons_of_pos
            (by simpa using fun he => hz (by rw [he]; rfl))],
        List.foldl_cons, ih]

/-! ### Ranker lemmas (`print_top_x`) -/

theorem insertByCount_perm (d : Dict) (k : Str) : ∀ (l : List Str),
    (insertByCount d k l).Perm (k :: l) := by
  intro l
  induction l with
  | nil => exact List.Perm.refl _
  | cons x xs ih =>
    rw [show insertByCount d k (x :: xs)
        = if countOf d x ≤ countOf d k then k :: x :: xs
          else x :: insertByCount d k xs from rfl]
    by_cases hc : countOf d x ≤ countOf d k
    · rw [if_pos hc]
    · rw [if_neg hc]
      exact (List.Perm.cons x ih).trans (List.Perm.swap k x xs)

theorem sortKeysDesc_perm (d : Dict) : ∀ (l : List Str), (sortKeysDesc d l).Perm l := by
  intro l
  induction l with
  | nil => exact List.Perm.refl _
  | cons x xs ih =>
    rw [show sortKeysDesc d (x :: xs) = insertByCount d x (sortKeysDesc d xs) from rfl]
    exact (insertByCount_perm d x _).trans (List.Perm.cons x ih)

theorem mem_insertByCount (d : Dict) (k : Str) (l : List Str) (y : Str)
    (hy : y ∈ insertByCount d k l) : y = k ∨ y ∈ l := by
  have h2 : y ∈ k :: l := (insertByCount_perm d k l).mem_iff.1 hy
  rcases List.mem_cons.1 h2 with h | h
  · exact Or.inl h
  · exact Or.inr h

theorem insertByCount_pairwise (d : Dict) (k : Str) : ∀ (l : List Str),
    l.Pairwise (fun a b => countOf d b ≤ countOf d a) →
    (insertByCount d k l).Pairwise (fun a b => countOf d b ≤ countOf d a) := by
  intro l
  induction l with
  | nil => intro; exact List.pairwise_singleton _ _
  | cons x xs ih =>
    intro h
    rw [List.pairwise_cons] at h
    rw [show insertByCount d k (x :: xs)
        = if countOf d x ≤ countOf d k then k :: x :: xs
          else x :: insertByCount d k xs from rfl]
    by_cases hc : countOf d x ≤ countOf d k
    · rw [if_pos hc]
      rw [List.pairwise_cons]
      constructor
      · intro y hy
        rcases List.mem_cons.1 hy with hy | hy
        · rw [hy]
          exact hc
        · exact Nat.le_trans (h.1 y hy) hc
      · rw [List.pairwise_cons]
        exact h
    · rw [if_neg hc]
      rw [List.pairwise_cons]
      constructor
      · intro y hy
        rcases mem_insertByCount d k xs y hy with hy | hy
        · rw [hy]
          omega
        · exact h.1 y hy
      · exact ih h.2

theorem sortKeysDesc_pairwise (d : Dict) : ∀ (l : List Str),
    (sortKeysDesc d l).Pairwise (fun a b => countOf d b ≤ countOf d a) := by
  intro l
  induction l with
  | nil => exact List.Pairwise.nil
  | cons x xs ih =>
    exact insertByCount_pairwise d x _ ih

theorem numberFrom_length (d : Dict) : ∀ (l : List Str) (i : Nat),
    (numberFrom d i l).length = l.length := by
  intro l
  induction l with
  | nil => intro i; rfl
  | cons x xs ih =>
    intro i
    rw [show numberFrom d i (x :: xs) = (i, countOf d x, x) :: numberFrom d (i + 1) xs from rfl,
      List.length_cons, List.length_cons, ih]

theorem numberFrom_get (d : Dict) : ∀ (l : List Str) (i j : Nat)
    (hj : j < (numberFrom d i l).length) (hj2 : j < l.length),
    (numberFrom d i l).get ⟨j, hj⟩ = (i + j, countOf d (l.get ⟨j, hj2⟩), l.get ⟨j, hj2⟩) := by
  intro l
  induction l with
  | nil => intro i j hj hj2; exact absurd hj2 (by simp)
  | cons x xs ih =>
    intro i j hj hj2
    cases j with
    | zero => rfl
    | succ j1 =>
      have hj3 : j1 < (numberFrom d (i + 1) xs).length := by
        rw [numberFrom_length] at hj ⊢
        rw [List.length_cons] at hj
        omega
      have hj4 : j1 < xs.length := by
        rw [List.length_cons] at hj2
        omega
      have harr : (numberFrom d i (x :: xs)).get ⟨j1 + 1, hj⟩
          = (numberFrom d (i + 1) xs).get ⟨j1, hj3⟩ := rfl
      have hget : ((x :: xs).get ⟨j1 + 1, hj2⟩ : Str) = xs.get ⟨j1, hj4⟩ := rfl
      rw [harr, hget, ih (i + 1) j1 hj3 hj4]
      have harith : i + 1 + j1 = i + (j1 + 1) := by omega
      rw [harith]

theorem mem_numberFrom (d : Dict) : ∀ (l : List Str) (i : Nat) (x : Nat × Nat × Str),
    x ∈ numberFrom d i l → x.2.2 ∈ l ∧ x.2.1 = countOf d x.2.2 := by
  intro l
  induction l with
  | nil => intro i x hx; exact absurd hx (List.not_mem_nil x)
  | cons y ys ih =>
    intro i x hx
    rw [show numberFrom d i (y :: ys) = (i, countOf d y, y) :: numberFrom d (i + 1) ys from rfl,
      List.mem_cons] at hx
    rcases hx with hx | hx
    · rw [hx]
      exact ⟨List.mem_cons_self _ _, rfl⟩
    · obtain ⟨h1, h2⟩ := ih (i + 1) x hx
      exact ⟨List.mem_cons_of_mem _ h1, h2⟩

theorem numberFrom_pairwise (d : Dict) : ∀ (l : List Str) (i : Nat),
    l.Pairwise (fun a b => countOf d b ≤ countOf d a) →
    (numberFrom d i l).Pairwise (fun a b => b.2.1 ≤ a.2.1) := by
  intro l
  induction l with
  | nil => intro i _; exact List.Pairwise.nil
  | cons x xs ih =>
    intro i h
    rw [List.pairwise_cons] at h
    rw [show numberFrom d i (x :: xs) = (i, countOf d x, x) :: numberFrom d (i + 1) xs from rfl,
      List.pairwise_cons]
    constructor
    · intro y hy
      obtain ⟨h1, h2⟩ := mem_numberFrom d xs (i + 1) y hy
      show y.2.1 ≤ countOf d x
      rw [h2]
      exact h.1 y.2.2 h1
    · exact ih (i + 1) h.2

theorem subInv_children_le (m : Node) (h : SubInv m) :
    ∀ e ∈ m.children, e.2.count ≤ m.count := by
  cases m with
  | mk c ch =>
    obtain ⟨_, _, _, hle, _⟩ := subInv_elim h
    simpa using hle

theorem lookupA_countOf (d : Dict) (k : Str) (h : k ∈ d.map Prod.fst) :
    lookupA d k = some (countOf d k) := by
  cases hl : lookupA d k with
  | none => exact absurd hl (lookupA_isSome_of_mem d k h)
  | some v =>
    rw [countOf, hl]
    rfl

/-! ### The claims -/

/-- C1: over a trie built with a valid configuration, the extraction
traversal writes a (phrase, count) pair exactly when some node of the trie,
at a path whose word count is its depth, is (a) a childless node at depth ≥
`minlen`, or (b) a node at depth ≥ `minlen` some of whose children has a
strictly smaller count; the recorded count is always the node's own count,
and no node is recorded in any other case. -/
theorem claim_C1 (minlen maxlen : Nat) (text : Str)
    (hmin : 1 ≤ minlen) (hmax : minlen ≤ maxlen) (k : Str) (v : Nat) :
    (k, v) ∈ writes minlen (build_tree minlen maxlen text) ↔
      ∃ pm ∈ subpaths (build_tree minlen maxlen text),
        k = pyStrip (joinT pm.1) ∧ v = pm.2.count ∧
          ((pm.2.children = [] ∧ minlen ≤ pm.1.length) ∨
           ((∃ e ∈ pm.2.children, e.2.count < pm.2.count) ∧ minlen ≤ pm.1.length)) := by
  rw [writes, mem_writesAux_iff]
  simp only [RecordCond, List.nil_append, Nat.zero_add]

/-- Witness for C1 at the configuration and text of Scenario D. -/
theorem claim_C1_witness :
    (1 ≤ 2 ∧ 2 ≤ 3) ∧
      (("p q r".data, 2) ∈ writes 2 (build_tree 2 3 "p q r. p q r.".data) ↔
        ∃ pm ∈ subpaths (build_tree 2 3 "p q r. p q r.".data),
          "p q r".data = pyStrip (joinT pm.1) ∧ 2 = pm.2.count ∧
            ((pm.2.children = [] ∧ 2 ≤ pm.1.length) ∨
             ((∃ e ∈ pm.2.children, e.2.count < pm.2.count) ∧ 2 ≤ pm.1.length))) :=
  ⟨⟨by decide, by decide⟩,
    claim_C1 2 3 "p q r. p q r.".data (by decide) (by decide) "p q r".data 2⟩

/-- C2: inserting a window walks it word by word from the given node; the
node at every nonempty prefix of the window exists afterwards and its count
is exactly one more than before (an absent node counting 0, so a created
node has count 1). -/
theorem claim_C2 (n : Node) (ws q : List Str) (hq : q ≠ [])
    (hpre : ∃ t, q ++ t = ws) :
    ∃ m, followPath (add_to_node n ws) q = some m ∧ m.count = countAt n q + 1 :=
  add_to_node_path ws n q hq hpre

/-- Witness for C2: inserting the window `["a", "b"]` into an empty root
creates the node at path `["a"]` with count `0 + 1`. -/
theorem claim_C2_witness :
    (([['a']] : List Str) ≠ [] ∧ ∃ t, [['a']] ++ t = [['a'], ['b']]) ∧
      ∃ m, followPath (add_to_node (.mk 0 []) [['a'], ['b']]) [['a']] = some m ∧
        m.count = countAt (.mk 0 []) [['a']] + 1 :=
  ⟨⟨by decide, ⟨[['b']], rfl⟩⟩,
    claim_C2 (.mk 0 []) [['a'], ['b']] [['a']] (by decide) ⟨[['b']], rfl⟩⟩

/-- C3: with a valid configuration, a sentence shorter than `minlen` yields
no windows; otherwise there is exactly one window per start index `s ≤ n -
minlen`, the window is `words[s : min(n, s + maxlen)]`, its length lies in
`[minlen, maxlen]`, and the builder folds insertion over exactly this window
list. -/
theorem claim_C3 (minlen maxlen : Nat) (words : List Str)
    (hmin : 1 ≤ minlen) (hmax : minlen ≤ maxlen) :
    (∀ root, insertWindows minlen maxlen words root
        = (windows minlen maxlen words).foldl add_to_node root) ∧
    (words.length < minlen → windows minlen maxlen words = []) ∧
    (minlen ≤ words.length →
      (windows minlen maxlen words).length = words.length - minlen + 1 ∧
      ∀ s, ∀ hs : s < (windows minlen maxlen words).length,
        (windows minlen maxlen words).get ⟨s, hs⟩
            = (words.take (min words.length (s + maxlen))).drop s ∧
        minlen ≤ ((windows minlen maxlen words).get ⟨s, hs⟩).length ∧
        ((windows minlen maxlen words).get ⟨s, hs⟩).length ≤ maxlen) :=
  ⟨fun _ => rfl, (windows_spec minlen maxlen words hmin hmax).1,
    (windows_spec minlen maxlen words hmin hmax).2⟩

/-- Witness for C3 on a three-word sentence with `minlen = 2`,
`maxlen = 3`. -/
theorem claim_C3_witness :
    (1 ≤ 2 ∧ 2 ≤ 3) ∧
      ((∀ root, insertWindows 2 3 [['a'], ['b'], ['c']] root
          = (windows 2 3 [['a'], ['b'], ['c']]).foldl add_to_node root) ∧
      (([['a'], ['b'], ['c']] : List Str).length < 2 →
        windows 2 3 [['a'], ['b'], ['c']] = []) ∧
      (2 ≤ ([['a'], ['b'], ['c']] : List Str).length →
        (windows 2 3 [['a'], ['b'], ['c']]).length
            = ([['a'], ['b'], ['c']] : List Str).length - 2 + 1 ∧
        ∀ s, ∀ hs : s < (windows 2 3 [['a'], ['b'], ['c']]).length,
          (windows 2 3 [['a'], ['b'], ['c']]).get ⟨s, hs⟩
              = (([['a'], ['b'], ['c']] : List Str).take
                  (min ([['a'], ['b'], ['c']] : List Str).length (s + 3))).drop s ∧
          2 ≤ ((windows 2 3 [['a'], ['b'], ['c']]).get ⟨s, hs⟩).length ∧
          ((windows 2 3 [['a'], ['b'], ['c']]).get ⟨s, hs⟩).length ≤ 3)) :=
  ⟨⟨by decide, by decide⟩, claim_C3 2 3 [['a'], ['b'], ['c']] (by decide) (by decide)⟩

/-- C4 counterexample: on Scenario D's input, "p q" is not a candidate at
all (the claim asserts it is a candidate with count 2): its only
continuation "p q r" has the same count, so no frequency drop occurs and
the node is not a leaf. -/
theorem claim_C4_counterexample :
    ¬ (lookupA (pipeline 2 3 "p q r. p q r.".data) "p q".data = some 2) := by
  decide

/-- C4 (amended): on Scenario D's input the pipeline produces exactly the
candidate map `{"p q r": 2, "q r": 2}`, and the ranked output (topK = 3)
lists those two phrases, each with count 2. -/
theorem claim_C4 :
    pipeline 2 3 "p q r. p q r.".data = [("p q r".data, 2), ("q r".data, 2)] ∧
    print_top_x 3 (pipeline 2 3 "p q r. p q r.".data)
      = [(1, 2, "p q r".data), (2, 2, "q r".data)] := by
  constructor <;> decide

/-- C5 counterexample: the claim includes edges out of the root, but the
root's count stays 0 while its children have positive counts; already for
the text "a." with `minlen = 1` some root edge violates
`child.count ≤ parent.count`. -/
theorem claim_C5_counterexample :
    ¬ (∀ pm ∈ subpaths (build_tree 1 2 "a.".data), ∀ e ∈ pm.2.children,
        e.2.count ≤ pm.2.count) := by
  decide

/-- C5 (amended): in every built trie, for every edge out of a non-root
node, the child's count is at most the parent's count. -/
theorem claim_C5 (minlen maxlen : Nat) (text : Str) :
    ∀ pm ∈ subpaths (build_tree minlen maxlen text), pm.1 ≠ [] →
      ∀ e ∈ pm.2.children, e.2.count ≤ pm.2.count := by
  intro pm hpm hne
  obtain ⟨_, _, hsub⟩ :=
    rootInv_paths _ (rootInv_build_tree minlen maxlen text) pm hpm hne
  exact subInv_children_le pm.2 hsub

/-- Witness for C5 on the text "a b.": the non-root node at path `["a"]`
has its child edge to "b" satisfying the count inequality. -/
theorem claim_C5_witness :
    (((["a".data], Node.mk 1 [("b".data, Node.mk 1 [])]) : List Str × Node)
        ∈ subpaths (build_tree 1 2 "a b.".data) ∧
      (["a".data] : List Str) ≠ [] ∧
      ("b".data, Node.mk 1 []) ∈ (Node.mk 1 [("b".data, Node.mk 1 [])]).children) ∧
    (("b".data, Node.mk 1 []) : Str × Node).2.count
      ≤ ((["a".data], Node.mk 1 [("b".data, Node.mk 1 [])]) : List Str × Node).2.count :=
  ⟨⟨by decide, by decide, by decide⟩,
    claim_C5 1 2 "a b.".data _ (by decide) (by decide) _ (by decide)⟩

/-- C6 counterexample: the extraction write log can write the same key
twice: on "a b c. a b d. a b c." with `minlen = 2` the node "a b" (count 3)
has two children of smaller count, so "a b" is written once per child. -/
theorem claim_C6_counterexample :
    ¬ ((writes 2 (build_tree 2 3 "a b c. a b d. a b c.".data)).map Prod.fst).Nodup := by
  decide

/-- C6 (amended): during extraction of a built trie a key may be written
more than once (once per child of a node with a strict count drop), but all
writes to the same key carry the same value — the key determines one trie
path and its node's count — so a later write never changes the stored
value. -/
theorem claim_C6 (minlen maxlen : Nat) (text : Str) (hmin : 1 ≤ minlen)
    (k : Str) (v1 v2 : Nat)
    (h1 : (k, v1) ∈ writes minlen (build_tree minlen maxlen text))
    (h2 : (k, v2) ∈ writes minlen (build_tree minlen maxlen text)) : v1 = v2 :=
  writes_value_unique minlen maxlen text hmin k v1 v2 h1 h2

/-- Witness for C6 at the duplicated key of the counterexample text. -/
theorem claim_C6_witness :
    (1 ≤ 2 ∧
      ("a b".data, 3) ∈ writes 2 (build_tree 2 3 "a b c. a b d. a b c.".data) ∧
      ("a b".data, 3) ∈ writes 2 (build_tree 2 3 "a b c. a b d. a b c.".data)) ∧
    (3 : Nat) = 3 :=
  ⟨⟨by decide, by decide, by decide⟩,
    claim_C6 2 3 "a b c. a b d. a b c.".data (by decide) "a b".data 3 3
      (by decide) (by decide)⟩

/-- C7: with a valid configuration, every entry of the candidate map has a
key whose word count (the words obtained by whitespace-splitting the key)
lies between `minlen` and `maxlen` inclusive. -/
theorem claim_C7 (minlen maxlen : Nat) (text : Str) (hmin : 1 ≤ minlen)
    (hmax : minlen ≤ maxlen) (p : Str × Nat)
    (hp : p ∈ pipeline minlen maxlen text) :
    minlen ≤ (pySplitWs p.1).length ∧ (pySplitWs p.1).length ≤ maxlen := by
  have hw := mem_pipeline minlen maxlen text p hp
  obtain ⟨q, m, _, hne, hg, hk, _, _, hmin2, hmax2⟩ :=
    mem_writes_built minlen maxlen text hmin p.1 p.2 hw
  rw [hk, pySplitWs_joinSpace q hg]
  exact ⟨hmin2, hmax2⟩

/-- Witness for C7 at the candidate "p q r" of Scenario D's input. -/
theorem claim_C7_witness :
    (1 ≤ 2 ∧ 2 ≤ 3 ∧
      (("p q r".data, 2) : Str × Nat) ∈ pipeline 2 3 "p q r. p q r.".data) ∧
    (2 ≤ (pySplitWs (("p q r".data, 2) : Str × Nat).1).length ∧
      (pySplitWs (("p q r".data, 2) : Str × Nat).1).length ≤ 3) :=
  ⟨⟨by decide, by decide, by decide⟩,
    claim_C7 2 3 "p q r. p q r.".data (by decide) (by decide) _ (by decide)⟩

/-- C8: the tokenizer first normalises `; ! ?` to `.` and splits on `.` —
equivalently, it splits on any of the four boundary characters; each
sentence has its punctuation removed and is split on whitespace into words;
and sentences with zero words are discarded, contributing no insertions:
the builder equals the fold over only the nonempty word lists. -/
theorem claim_C8 (minlen maxlen : Nat) (text : Str) :
    rawSentences text
        = splitOnP (fun c => c = '.' || c = ';' || c = '!' || c = '?') text ∧
    (∀ s : Str, sentenceWords s = pySplitWs (pyStrip (stripPunct s))) ∧
    build_tree minlen maxlen text =
      (((rawSentences text).map sentenceWords).filter (· ≠ [])).foldl
        (fun root ws => insertWindows minlen maxlen ws root) (.mk 0 []) :=
  ⟨rawSentences_eq_splitOnBoundary text, fun _ => rfl,
    build_tree_eq_filtered minlen maxlen text⟩

/-- C9: the ranker emits the candidates sorted by count descending — some
permutation of the keys, non-increasing in count, cut to the first
`min(topK, |candidates|)` entries — numbered consecutively from 1, each
entry paired with its stored count; `topK = 0` or an empty candidate map
yields an empty result. -/
theorem claim_C9 (top_x : Nat) (d : Dict) :
    (print_top_x top_x d).length = min top_x d.length ∧
    (top_x = 0 → print_top_x top_x d = []) ∧
    (d = [] → print_top_x top_x d = []) ∧
    (∀ j, ∀ hj : j < (print_top_x top_x d).length,
      ((print_top_x top_x d).get ⟨j, hj⟩).1 = j + 1) ∧
    (print_top_x top_x d).Pairwise (fun a b => b.2.1 ≤ a.2.1) ∧
    (∀ x ∈ print_top_x top_x d, lookupA d x.2.2 = some x.2.1) ∧
    (∃ l : List Str, l.Perm (d.map Prod.fst) ∧
      l.Pairwise (fun a b => countOf d b ≤ countOf d a) ∧
      print_top_x top_x d = numberFrom d 1 (l.take top_x)) := by
  refine ⟨?_, ?_, ?_, ?_, ?_, ?_, ?_⟩
  · unfold print_top_x
    rw [numberFrom_length, List.length_take,
      (sortKeysDesc_perm d (d.map Prod.fst)).length_eq, List.length_map]
  · intro h
    subst h
    rfl
  · intro h
    subst h
    cases top_x <;> rfl
  · intro j hj
    have hj2 : j < ((sortKeysDesc d (d.map Prod.fst)).take top_x).length := by
      have hl := numberFrom_length d ((sortKeysDesc d (d.map Prod.fst)).take top_x) 1
      unfold print_top_x at hj
      omega
    unfold print_top_x
    rw [numberFrom_get d _ 1 j hj hj2]
    omega
  · unfold print_top_x
    exact numberFrom_pairwise d _ 1
      (List.Pairwise.sublist (List.take_sublist top_x _)
        (sortKeysDesc_pairwise d (d.map Prod.fst)))
  · intro x hx
    unfold print_top_x at hx
    obtain ⟨h1, h2⟩ := mem_numberFrom d _ 1 x hx
    have h3 : x.2.2 ∈ d.map Prod.fst :=
      (sortKeysDesc_perm d (d.map Prod.fst)).mem_iff.1
        (List.mem_of_mem_take h1)
    rw [lookupA_countOf d x.2.2 h3, h2]
  · exact ⟨sortKeysDesc d (d.map Prod.fst), sortKeysDesc_perm d _,
      sortKeysDesc_pairwise d _, rfl⟩

/-- Witness for C9 on a one-entry candidate map with `topK = 2`. -/
theorem claim_C9_witness :
    (print_top_x 2 [(['a'], 1)]).length = min 2 ([(['a'], 1)] : Dict).length ∧
    ((2 : Nat) = 0 → print_top_x 2 [(['a'], 1)] = []) ∧
    (([(['a'], 1)] : Dict) = [] → print_top_x 2 [(['a'], 1)] = []) ∧
    (∀ j, ∀ hj : j < (print_top_x 2 [(['a'], 1)]).length,
      ((print_top_x 2 [(['a'], 1)]).get ⟨j, hj⟩).1 = j + 1) ∧
    (print_top_x 2 [(['a'], 1)]).Pairwise (fun a b => b.2.1 ≤ a.2.1) ∧
    (∀ x ∈ print_top_x 2 [(['a'], 1)], lookupA [(['a'], 1)] x.2.2 = some x.2.1) ∧
    (∃ l : List Str, l.Perm (([(['a'], 1)] : Dict).map Prod.fst) ∧
      l.Pairwise (fun a b => countOf [(['a'], 1)] b ≤ countOf [(['a'], 1)] a) ∧
      print_top_x 2 [(['a'], 1)] = numberFrom [(['a'], 1)] 1 (l.take 2)) :=
  claim_C9 2 [(['a'], 1)]

/-- C10: with `minlen ≥ 1`, every entry of the candidate map has a nonempty
key (in particular the empty string is never a key; the root is never
recorded) and a count of at least 1. -/
theorem claim_C10 (minlen maxlen : Nat) (text : Str) (hmin : 1 ≤ minlen)
    (p : Str × Nat) (hp : p ∈ pipeline minlen maxlen text) :
    p.1 ≠ [] ∧ 1 ≤ p.2 := by
  have hw := mem_pipeline minlen maxlen text p hp
  obtain ⟨q, m, _, hne, hg, hk, hv, hc, _, _⟩ :=
    mem_writes_built minlen maxlen text hmin p.1 p.2 hw
  constructor
  · rw [hk]
    obtain ⟨c, t, hct, _⟩ := joinSpace_first q hne hg
    rw [hct]
    simp
  · rw [hv]
    exact hc

/-- Witness for C10 at the candidate "q r" of Scenario D's input. -/
theorem claim_C10_witness :
    (1 ≤ 2 ∧ (("q r".data, 2) : Str × Nat) ∈ pipeline 2 3 "p q r. p q r.".data) ∧
    ((("q r".data, 2) : Str × Nat).1 ≠ [] ∧ 1 ≤ (("q r".data, 2) : Str × Nat).2) :=
  ⟨⟨by decide, by decide⟩,
    claim_C10 2 3 "p q r. p q r.".data (by decide) _ (by decide)⟩

end Phraser
